import Mathlib

/-!
Verification of the Classification, Streaming & Page-Allocation Engine
(source: ORF.py).  Each operation the claims touch is embedded as an
executable Lean definition translated from the Python source; theorems
below settle the claims against these definitions.

Strings are modelled as lists of characters (`Str`); Python integers are
`Int`/`Nat` (Python ints are unbounded, so no wrap-around modelling is
needed).
-/

/-- Character strings, modelled as lists of characters. -/
abbrev Str := List Char

/-- Coerce a Lean string literal to the `Str` model. -/
def strOf (s : String) : Str := s.data

/-- Python slice `l[c : c + n]` for non-negative `c`, `n` (clamps at both ends). -/
def pySlice {α : Type} (l : List α) (c n : ℕ) : List α := (l.drop c).take n

/-! ## Date Distribution Engine (`_distribute_by_dates`, ORF.py lines 2567-2600) -/

/-- Quota-mode loop of `_distribute_by_dates` (ORF.py 2572-2588): walks the
remaining `(date, limit)` entries carrying the read cursor.  A day with
`remaining <= 0` receives an empty slice and the cursor stays; a day whose
limit is `None` or `<= 0` takes everything remaining; a non-last day takes
`min(limit, remaining)`; the last day takes everything remaining. -/
def quotaGo {α δ : Type} (items : List α) : ℕ → List (δ × Option ℤ) → List (δ × List α)
  | _, [] => []
  | cursor, (d, limit) :: rest =>
    let remaining := items.length - cursor
    if remaining = 0 then
      (d, ([] : List α)) :: quotaGo items cursor rest
    else
      let tk : ℕ :=
        match limit with
        | none => remaining
        | some l => if l ≤ 0 then remaining
                    else if rest.isEmpty then remaining
                    else min l.toNat remaining
      (d, pySlice items cursor tk) :: quotaGo items (cursor + tk) rest

/-- Even-mode loop of `_distribute_by_dates` (ORF.py 2589-2599): every day but
the last takes `min(per, len(items) - cursor)`; the last day takes the rest. -/
def evenGo {α δ : Type} (items : List α) (per : ℕ) : ℕ → List (δ × Option ℤ) → List (δ × List α)
  | _, [] => []
  | cursor, (d, _) :: rest =>
    if rest.isEmpty then
      [(d, pySlice items cursor (items.length - cursor))]
    else
      let tk := min per (items.length - cursor)
      (d, pySlice items cursor tk) :: evenGo items per (cursor + tk) rest

/-- `_distribute_by_dates(items, date_entries)` (ORF.py 2567-2600).  Returns
`[]` for an empty entry list; quota mode is selected when the first entry has
an explicit limit, even mode otherwise with `per = ceil(total / days)`. -/
def distribute_by_dates {α δ : Type} (items : List α)
    (date_entries : List (δ × Option ℤ)) : List (δ × List α) :=
  match date_entries with
  | [] => []
  | (_, some _) :: _ => quotaGo items 0 date_entries
  | (_, none) :: _ =>
    let days := date_entries.length
    let per := (items.length + days - 1) / days
    evenGo items per 0 date_entries

/-! ### Helper lemmas about the distribution loops -/

/-- A slice that reaches to the end of the list is exactly `drop`. -/
theorem pySlice_to_end {α : Type} (l : List α) (c : ℕ) :
    pySlice l c (l.length - c) = l.drop c := by
  unfold pySlice
  rw [show l.length - c = (l.drop c).length by simp, List.take_length]

/-- A slice followed by the drop of its endpoint reassembles the drop of its
start. -/
theorem pySlice_append_drop {α : Type} (l : List α) (c tk : ℕ) :
    pySlice l c tk ++ l.drop (c + tk) = l.drop c := by
  unfold pySlice
  conv_rhs => rw [← List.take_append_drop tk (l.drop c)]
  rw [List.drop_drop]

/-- One-step unfolding of the quota-mode loop. -/
theorem quotaGo_cons {α δ : Type} (items : List α) (cursor : ℕ) (d : δ)
    (limit : Option ℤ) (rest : List (δ × Option ℤ)) :
    quotaGo items cursor ((d, limit) :: rest) =
      if items.length - cursor = 0 then
        (d, ([] : List α)) :: quotaGo items cursor rest
      else
        (let tk : ℕ :=
          match limit with
          | none => items.length - cursor
          | some l => if l ≤ 0 then items.length - cursor
                      else if rest.isEmpty then items.length - cursor
                      else min l.toNat (items.length - cursor)
        (d, pySlice items cursor tk) :: quotaGo items (cursor + tk) rest) := rfl

/-- One-step unfolding of the even-mode loop. -/
theorem evenGo_cons {α δ : Type} (items : List α) (per cursor : ℕ) (d : δ)
    (limit : Option ℤ) (rest : List (δ × Option ℤ)) :
    evenGo items per cursor ((d, limit) :: rest) =
      if rest.isEmpty then
        [(d, pySlice items cursor (items.length - cursor))]
      else
        (let tk := min per (items.length - cursor)
        (d, pySlice items cursor tk) :: evenGo items per (cursor + tk) rest) := rfl

theorem quotaGo_flatten {α δ : Type} (items : List α) :
    ∀ (ents : List (δ × Option ℤ)) (cursor : ℕ), ents ≠ [] →
      ((quotaGo items cursor ents).map Prod.snd).flatten = items.drop cursor := by
  intro ents
  induction ents with
  | nil => intro _ h; exact absurd rfl h
  | cons e rest ih =>
    intro cursor _
    obtain ⟨d, limit⟩ := e
    rw [quotaGo_cons]
    by_cases hrem : items.length - cursor = 0
    · have hdrop : items.drop cursor = [] := List.drop_eq_nil_of_le (by omega)
      rw [if_pos hrem]
      rcases rest with _ | ⟨e2, rest2⟩
      · simp [quotaGo, hdrop]
      · rw [List.map_cons, List.flatten_cons, ih cursor (by simp), hdrop]
        rfl
    · rw [if_neg hrem]
      rcases rest with _ | ⟨e2, rest2⟩
      · cases limit with
        | none => simp [quotaGo, pySlice_to_end]
        | some l => by_cases hl : l ≤ 0 <;> simp [quotaGo, hl, pySlice_to_end]
      · rw [List.map_cons, List.flatten_cons, ih _ (by simp)]
        exact pySlice_append_drop items cursor _

theorem evenGo_flatten {α δ : Type} (items : List α) (per : ℕ) :
    ∀ (ents : List (δ × Option ℤ)) (cursor : ℕ), ents ≠ [] →
      ((evenGo items per cursor ents).map Prod.snd).flatten = items.drop cursor := by
  intro ents
  induction ents with
  | nil => intro _ h; exact absurd rfl h
  | cons e rest ih =>
    intro cursor _
    obtain ⟨d, limit⟩ := e
    rw [evenGo_cons]
    rcases rest with _ | ⟨e2, rest2⟩
    · simp [pySlice_to_end]
    · rw [if_neg (by simp)]
      rw [List.map_cons, List.flatten_cons, ih _ (by simp)]
      exact pySlice_append_drop items cursor _

/-- Taking at most the clamped count equals taking the unclamped count. -/
theorem pySlice_min {α : Type} (items : List α) (c n : ℕ) :
    pySlice items c (min n (items.length - c)) = pySlice items c n := by
  unfold pySlice
  rw [show items.length - c = (items.drop c).length by simp]
  rcases le_total n (items.drop c).length with h | h
  · rw [min_eq_left h]
  · rw [min_eq_right h, List.take_length, List.take_of_length_le h]

/-- Per-day take prescribed by the spec for a non-last quota day: an unset or
non-positive limit takes everything remaining, otherwise `min(limit, remaining)`. -/
def quotaTakeRule (total c : ℕ) (limit : Option ℤ) : ℕ :=
  match limit with
  | none => total - c
  | some l => if l ≤ 0 then total - c else min l.toNat (total - c)

/-- Cursor position after the given (non-last) quota days, per the spec rule. -/
def quotaCursorNL (total : ℕ) : ℕ → List (Option ℤ) → ℕ
  | c, [] => c
  | c, limit :: rest => quotaCursorNL total (c + quotaTakeRule total c limit) rest

/-- The spec take never exceeds what remains. -/
theorem quotaTakeRule_le (total c : ℕ) (limit : Option ℤ) :
    quotaTakeRule total c limit ≤ total - c := by
  cases limit with
  | none => exact le_refl _
  | some l =>
    by_cases hl : l ≤ 0
    · simp [quotaTakeRule, hl]
    · simp only [quotaTakeRule, hl, if_neg, Bool.false_eq_true, if_false]
      exact min_le_right _ _

theorem quotaGo_get {α δ : Type} (items : List α) :
    ∀ (ents : List (δ × Option ℤ)) (c i : ℕ) (h : i < ents.length),
      (quotaGo items c ents)[i]? =
        some ((ents.get ⟨i, h⟩).1,
          if i + 1 = ents.length then
            pySlice items (quotaCursorNL items.length c ((ents.map Prod.snd).take i))
              (items.length - quotaCursorNL items.length c ((ents.map Prod.snd).take i))
          else
            pySlice items (quotaCursorNL items.length c ((ents.map Prod.snd).take i))
              (quotaTakeRule items.length
                (quotaCursorNL items.length c ((ents.map Prod.snd).take i))
                (ents.get ⟨i, h⟩).2)) := by
  intro ents
  induction ents with
  | nil => intro c i h; exact absurd h (by simp)
  | cons e rest ih =>
    intro c i h
    obtain ⟨d, limit⟩ := e
    rw [quotaGo_cons]
    cases i with
    | zero =>
      simp only [List.map_cons, List.take_zero, quotaCursorNL]
      by_cases hrem : items.length - c = 0
      · rw [if_pos hrem]
        have hdrop : pySlice items c (items.length - c) = [] := by
          unfold pySlice
          rw [List.drop_eq_nil_of_le (by omega)]
          simp
        have hdrop2 : ∀ n, pySlice items c n = [] := by
          intro n
          unfold pySlice
          rw [List.drop_eq_nil_of_le (by omega)]
          simp
        rcases rest with _ | ⟨e2, rest2⟩ <;>
          simp [List.get, quotaTakeRule, hdrop2]
      · rw [if_neg hrem]
        rcases rest with _ | ⟨e2, rest2⟩
        · simp only [List.length_cons, List.length_nil, Nat.zero_add,
            if_pos rfl, List.get]
          cases limit with
          | none => simp
          | some l => by_cases hl : l ≤ 0 <;> simp [hl]
        · have hlen : ¬ (0 + 1 = (( (d, limit) :: e2 :: rest2 : List (δ × Option ℤ))).length) := by
            simp
          rw [if_neg hlen]
          cases limit with
          | none => simp [List.get, quotaTakeRule]
          | some l => by_cases hl : l ≤ 0 <;> simp [List.get, quotaTakeRule, hl]
    | succ j =>
      have hrest : j < rest.length := by simpa using h
      have hrestE : rest.isEmpty = false := by
        cases rest with
        | nil => exact absurd hrest (by simp)
        | cons a b => rfl
      have hif : (j + 1 + 1 = ((d, limit) :: rest).length) ↔ (j + 1 = rest.length) := by
        simp
      have htail : ∀ tk, tk = quotaTakeRule items.length c limit →
          (quotaGo items (c + tk) rest)[j]? =
          some ((((d, limit) :: rest).get ⟨j + 1, h⟩).1,
            if j + 1 + 1 = ((d, limit) :: rest).length then
              pySlice items
                (quotaCursorNL items.length c
                  ((((d, limit) :: rest).map Prod.snd).take (j + 1)))
                (items.length -
                  quotaCursorNL items.length c
                    ((((d, limit) :: rest).map Prod.snd).take (j + 1)))
            else
              pySlice items
                (quotaCursorNL items.length c
                  ((((d, limit) :: rest).map Prod.snd).take (j + 1)))
                (quotaTakeRule items.length
                  (quotaCursorNL items.length c
                    ((((d, limit) :: rest).map Prod.snd).take (j + 1)))
                  (((d, limit) :: rest).get ⟨j + 1, h⟩).2)) := by
        intro tk htk
        rw [ih (c + tk) j hrest]
        have hcur :
            quotaCursorNL items.length c
                ((((d, limit) :: rest).map Prod.snd).take (j + 1)) =
            quotaCursorNL items.length (c + tk) ((rest.map Prod.snd).take j) := by
          simp [quotaCursorNL, htk]
        rw [hcur]
        by_cases hl2 : j + 1 = rest.length
        · rw [if_pos hl2, if_pos (hif.mpr hl2)]
          simp [List.get]
        · rw [if_neg hl2, if_neg (fun hx => hl2 (hif.mp hx))]
          simp [List.get]
      by_cases hrem : items.length - c = 0
      · rw [if_pos hrem]
        have hadv : quotaTakeRule items.length c limit = 0 := by
          have hle := quotaTakeRule_le items.length c limit
          omega
        have := htail (quotaTakeRule items.length c limit) rfl
        rw [hadv, Nat.add_zero] at this
        simpa using this
      · rw [if_neg hrem]
        cases limit with
        | none =>
          simpa using htail (items.length - c) rfl
        | some l =>
          by_cases hl : l ≤ 0
          · simp only [hl, if_pos]
            simpa using htail (items.length - c) (by simp [quotaTakeRule, hl])
          · simp only [hl, if_neg, Bool.false_eq_true, if_false, hrestE]
            simpa using htail (min l.toNat (items.length - c)) (by simp [quotaTakeRule, hl])

theorem evenGo_get {α δ : Type} (items : List α) (per : ℕ) :
    ∀ (ents : List (δ × Option ℤ)) (c i : ℕ) (h : i < ents.length),
      (evenGo items per c ents)[i]? =
        some ((ents.get ⟨i, h⟩).1,
          if i + 1 = ents.length then items.drop (c + i * per)
          else pySlice items (c + i * per) per) := by
  intro ents
  induction ents with
  | nil => intro c i h; exact absurd h (by simp)
  | cons e rest ih =>
    intro c i h
    obtain ⟨d, limit⟩ := e
    rw [evenGo_cons]
    cases i with
    | zero =>
      rcases rest with _ | ⟨e2, rest2⟩
      · simp [List.get, pySlice_to_end]
      · rw [if_neg (by simp)]
        have hc : ¬ (0 + 1 = ((d, limit) :: e2 :: rest2 : List (δ × Option ℤ)).length) := by
          simp
        rw [if_neg hc]
        simp [List.get, pySlice_min]
    | succ j =>
      have hrest : j < rest.length := by simpa using h
      have hrestE : rest.isEmpty = false := by
        cases rest with
        | nil => exact absurd hrest (by simp)
        | cons a b => rfl
      rw [if_neg (by simp [hrestE])]
      have hkey : ∀ k, items.drop (c + min per (items.length - c) + k) =
          items.drop (c + per + k) := by
        intro k
        rcases le_or_lt (c + per) items.length with h1 | h1
        · have hmin : min per (items.length - c) = per := by omega
          rw [hmin]
        · rw [List.drop_eq_nil_of_le (by omega), List.drop_eq_nil_of_le (by omega)]
      have hidx : c + per + j * per = c + (j + 1) * per := by ring
      simp only [List.getElem?_cons_succ]
      rw [ih (c + min per (items.length - c)) j hrest]
      have hfix : ∀ n, pySlice items (c + min per (items.length - c) + j * per) n =
          pySlice items (c + (j + 1) * per) n := by
        intro n
        unfold pySlice
        rw [hkey (j * per), hidx]
      have hfix2 : items.drop (c + min per (items.length - c) + j * per) =
          items.drop (c + (j + 1) * per) := by
        rw [hkey (j * per), hidx]
      by_cases hl2 : j + 1 = rest.length
      · rw [if_pos hl2, if_pos (by simpa using hl2)]
        simp [List.get, hfix2]
      · rw [if_neg hl2, if_neg (by simpa using hl2)]
        simp [List.get, hfix]

/-- The quota loop emits one slice per entry, labelled with its date. -/
theorem quotaGo_fst {α δ : Type} (items : List α) :
    ∀ (ents : List (δ × Option ℤ)) (c : ℕ),
      (quotaGo items c ents).map Prod.fst = ents.map Prod.fst := by
  intro ents
  induction ents with
  | nil => intro c; rfl
  | cons e rest ih =>
    intro c
    obtain ⟨d, limit⟩ := e
    rw [quotaGo_cons]
    by_cases hrem : items.length - c = 0
    · rw [if_pos hrem]; simp [ih]
    · rw [if_neg hrem]; simp [ih]

/-- The even loop emits one slice per entry, labelled with its date. -/
theorem evenGo_fst {α δ : Type} (items : List α) (per : ℕ) :
    ∀ (ents : List (δ × Option ℤ)) (c : ℕ),
      (evenGo items per c ents).map Prod.fst = ents.map Prod.fst := by
  intro ents
  induction ents with
  | nil => intro c; rfl
  | cons e rest ih =>
    intro c
    obtain ⟨d, limit⟩ := e
    rw [evenGo_cons]
    rcases rest with _ | ⟨e2, rest2⟩
    · simp
    · rw [if_neg (by simp)]; simp [ih]

/-! ## Claims about the Date Distribution Engine -/

/-- Claim C10: calling the date-distribution function with a non-empty item
list and an empty date-entry list returns the empty result list, so all items
are dropped and the coverage property fails without at least one date entry. -/
theorem claim_c10 {α δ : Type} (items : List α) (h : items ≠ []) :
    distribute_by_dates items ([] : List (δ × Option ℤ)) = [] ∧
    ((distribute_by_dates items ([] : List (δ × Option ℤ))).map Prod.snd).flatten ≠ items := by
  refine ⟨rfl, fun hx => h ?_⟩
  simpa [distribute_by_dates] using hx.symm

/-- Witness for C10 at a concrete input. -/
theorem claim_c10_witness :
    ([(0 : ℕ)] ≠ []) ∧
    (distribute_by_dates [(0 : ℕ)] ([] : List (ℕ × Option ℤ)) = [] ∧
      ((distribute_by_dates [(0 : ℕ)] ([] : List (ℕ × Option ℤ))).map Prod.snd).flatten ≠
        [(0 : ℕ)]) :=
  ⟨by decide, claim_c10 [(0 : ℕ)] (by decide)⟩

/-- Claim C7: for a non-empty entry list, the distribution covers the input
exactly once in order (concatenation of the slices is the input), emits one
slice per date in date order, and in even mode day `i` takes the slice of
size `per = ceil(total / days)` starting at `i * per` (the last day taking
everything remaining); in particular 12 items over 3 even dates give slices
of lengths 4, 4, 4. -/
theorem claim_c7 {α δ : Type} (items : List α) (entries : List (δ × Option ℤ))
    (hne : entries ≠ []) :
    (((distribute_by_dates items entries).map Prod.snd).flatten = items) ∧
    ((distribute_by_dates items entries).map Prod.fst = entries.map Prod.fst) ∧
    ((distribute_by_dates items entries).length = entries.length) ∧
    (∀ d0 rest, entries = (d0, (none : Option ℤ)) :: rest →
      ∀ i (h : i < entries.length),
        (distribute_by_dates items entries)[i]? =
          some ((entries.get ⟨i, h⟩).1,
            if i + 1 = entries.length then
              items.drop (i * ((items.length + entries.length - 1) / entries.length))
            else
              pySlice items (i * ((items.length + entries.length - 1) / entries.length))
                ((items.length + entries.length - 1) / entries.length))) ∧
    ((distribute_by_dates (List.range 12)
        [((0 : ℕ), (none : Option ℤ)), (1, none), (2, none)]).map
          (fun p => p.2.length) = [4, 4, 4]) := by
  rcases entries with _ | ⟨⟨d0, limit0⟩, rest⟩
  · exact absurd rfl hne
  · refine ⟨?_, ?_, ?_, ?_, by decide⟩
    · cases limit0 with
      | none =>
        have := evenGo_flatten items
          ((items.length + ((d0, (none : Option ℤ)) :: rest).length - 1) /
            ((d0, (none : Option ℤ)) :: rest).length)
          ((d0, (none : Option ℤ)) :: rest) 0 (by simp)
        simpa [distribute_by_dates] using this
      | some l =>
        have := quotaGo_flatten items ((d0, some l) :: rest) 0 (by simp)
        simpa [distribute_by_dates] using this
    · cases limit0 with
      | none =>
        have := evenGo_fst items
          ((items.length + ((d0, (none : Option ℤ)) :: rest).length - 1) /
            ((d0, (none : Option ℤ)) :: rest).length)
          ((d0, (none : Option ℤ)) :: rest) 0
        simpa [distribute_by_dates] using this
      | some l =>
        have := quotaGo_fst items ((d0, some l) :: rest) 0
        simpa [distribute_by_dates] using this
    · cases limit0 with
      | none =>
        have := evenGo_fst items
          ((items.length + ((d0, (none : Option ℤ)) :: rest).length - 1) /
            ((d0, (none : Option ℤ)) :: rest).length)
          ((d0, (none : Option ℤ)) :: rest) 0
        have hlen := congrArg List.length this
        simpa [distribute_by_dates] using hlen
      | some l =>
        have := quotaGo_fst items ((d0, some l) :: rest) 0
        have hlen := congrArg List.length this
        simpa [distribute_by_dates] using hlen
    · intro d1 rest1 heq i h
      cases limit0 with
      | none =>
        have := evenGo_get items
          ((items.length + ((d0, (none : Option ℤ)) :: rest).length - 1) /
            ((d0, (none : Option ℤ)) :: rest).length)
          ((d0, (none : Option ℤ)) :: rest) 0 i h
        simpa [distribute_by_dates] using this
      | some l => simp at heq

/-- Witness for C7 at a concrete input: coverage of 12 items over 3 even days. -/
theorem claim_c7_witness :
    (([((0 : ℕ), (none : Option ℤ)), (1, none), (2, none)] : List (ℕ × Option ℤ)) ≠ []) ∧
    ((distribute_by_dates (List.range 12)
        [((0 : ℕ), (none : Option ℤ)), (1, none), (2, none)]).map Prod.snd).flatten =
      List.range 12 :=
  ⟨by decide,
    (claim_c7 (List.range 12)
      [((0 : ℕ), (none : Option ℤ)), (1, none), (2, none)] (by decide)).1⟩

/-- Counterexample for C2 as stated: 12 items distributed over quotas
`[5, None, 3]` yield slices of lengths `[5, 7, 0]`, not `[5, 4, 3]` — the
unlimited second day absorbs everything remaining, leaving the last day empty. -/
theorem claim_c2_cex :
    (distribute_by_dates (List.range 12)
        [((0 : ℕ), some (5 : ℤ)), (1, none), (2, some 3)]).map
      (fun p => p.2.length) = [5, 7, 0] ∧
    ([5, 7, 0] : List ℕ) ≠ [5, 4, 3] := by
  constructor
  · decide
  · decide

/-- Claim C2 (amended): in quota mode each day `i` takes the slice starting at
the cursor, where a day with an unset or non-positive limit takes all
remaining items, a non-last limited day takes `min(limit, remaining)`, and the
last day takes all that remain; distributing 12 items over 3 dates with quotas
`[5, None, 3]` therefore yields slices of lengths `[5, 7, 0]`. -/
theorem claim_c2 {α δ : Type} (items : List α) (entries : List (δ × Option ℤ))
    (hq : (entries.head?.map fun e => e.2.isSome) = some true) :
    (∀ i (h : i < entries.length),
      (distribute_by_dates items entries)[i]? =
        some ((entries.get ⟨i, h⟩).1,
          if i + 1 = entries.length then
            pySlice items (quotaCursorNL items.length 0 ((entries.map Prod.snd).take i))
              (items.length -
                quotaCursorNL items.length 0 ((entries.map Prod.snd).take i))
          else
            pySlice items (quotaCursorNL items.length 0 ((entries.map Prod.snd).take i))
              (quotaTakeRule items.length
                (quotaCursorNL items.length 0 ((entries.map Prod.snd).take i))
                (entries.get ⟨i, h⟩).2))) ∧
    ((distribute_by_dates (List.range 12)
        [((0 : ℕ), some (5 : ℤ)), (1, none), (2, some 3)]).map
      (fun p => p.2.length) = [5, 7, 0]) := by
  refine ⟨?_, by decide⟩
  intro i h
  rcases entries with _ | ⟨⟨d0, limit0⟩, rest⟩
  · simp at hq
  · cases limit0 with
    | none => simp at hq
    | some l =>
      have := quotaGo_get items ((d0, some l) :: rest) 0 i h
      simpa [distribute_by_dates] using this

/-- Witness for C2 at a concrete input: the first quota day takes its limit. -/
theorem claim_c2_witness :
    (((([((0 : ℕ), some (5 : ℤ)), (1, none), (2, some 3)] :
        List (ℕ × Option ℤ))).head?.map fun e => e.2.isSome) = some true) ∧
    (distribute_by_dates (List.range 12)
        [((0 : ℕ), some (5 : ℤ)), (1, none), (2, some 3)])[0]? =
      some ((0 : ℕ), [0, 1, 2, 3, 4]) := by
  refine ⟨by decide, ?_⟩
  have h := (claim_c2 (List.range 12)
    [((0 : ℕ), some (5 : ℤ)), (1, none), (2, some 3)] (by decide)).1 0 (by decide)
  rw [h]
  decide

/-! ## Floor Segmentation Engine (`segment_index`, ORF.py lines 600-626) -/

/-- `segment_index(floor, breaks)` (ORF.py 600-626).  With no breakpoints:
machine room (sentinel `10^6 - 1`) goes to segment 1, roof (`>= 10^6`) to
segment 2, everything else to segment 0.  With breakpoints: machine room goes
to `len(breaks)`, roof to `len(breaks) + 1`, and a numeric floor to the first
index whose breakpoint is `>=` it, falling back to `len(breaks)`. -/
def segment_index (floor : ℤ) (breaks : List ℤ) : ℕ :=
  if breaks = [] then
    if floor = 10 ^ 6 - 1 then 1
    else if 10 ^ 6 ≤ floor then 2
    else 0
  else
    if floor = 10 ^ 6 - 1 then breaks.length
    else if 10 ^ 6 ≤ floor then breaks.length + 1
    else
      match breaks.findIdx? (fun b => decide (floor ≤ b)) with
      | some i => i
      | none => breaks.length

/-- Counterexample for C9 as stated: with the sorted breakpoint list `[-1]`,
a floor of rank 0 lands in segment 1, not in segment 0. -/
theorem claim_c9_cex :
    segment_index 0 [(-1 : ℤ)] = 1 ∧ (1 : ℕ) ≠ 0 ∧
    List.Sorted (· ≤ ·) [(-1 : ℤ)] := by
  refine ⟨?_, by decide, by simp⟩
  rfl


/-- A found index is within bounds. -/
theorem findIdxq_some_lt {α : Type} (p : α → Bool) :
    ∀ (l : List α) (i : ℕ), l.findIdx? p = some i → i < l.length := by
  intro l
  induction l with
  | nil => intro i h; simp at h
  | cons a t ih =>
    intro i h
    rw [List.findIdx?_cons] at h
    by_cases hp : p a
    · simp [hp] at h
      simp only [List.length_cons]
      omega
    · simp [hp] at h
      obtain ⟨j, hj, hji⟩ := h
      have := ih j hj
      simp only [List.length_cons]
      omega

/-- Claim C9 (amended): the machine-room rank maps to segment `len(breaks)`
(1 when there are no breakpoints), the roof rank to `len(breaks) + 1` (2 when
there are no breakpoints), always in that relative order as the two final
segments (no rank maps beyond the roof segment, and no numeric rank maps
beyond the machine-room segment); a numeric rank goes to the first index `i`
with `rank <= breaks[i]`, or past the last numeric segment if none; and rank 0
(underground or unrecognized floors) lands in segment 0 provided the
breakpoints are non-negative. -/
theorem claim_c9 (rank : ℤ) (breaks : List ℤ) :
    (rank = 10 ^ 6 - 1 →
      segment_index rank breaks = if breaks = [] then 1 else breaks.length) ∧
    (10 ^ 6 ≤ rank →
      segment_index rank breaks = if breaks = [] then 2 else breaks.length + 1) ∧
    (rank < 10 ^ 6 - 1 →
      segment_index rank breaks =
        match breaks.findIdx? (fun b => decide (rank ≤ b)) with
        | some i => i
        | none => breaks.length) ∧
    ((if breaks = [] then 1 else breaks.length) <
      (if breaks = [] then 2 else breaks.length + 1) ∧
     segment_index rank breaks ≤ (if breaks = [] then 2 else breaks.length + 1) ∧
     (rank < 10 ^ 6 - 1 →
       segment_index rank breaks ≤ (if breaks = [] then 1 else breaks.length))) ∧
    (rank = 0 → (∀ b ∈ breaks, 0 ≤ b) → segment_index rank breaks = 0) := by
  have e2 : (10 : ℤ) ^ 6 - 1 = 999999 := by norm_num
  have e1 : (10 : ℤ) ^ 6 = 1000000 := by norm_num
  by_cases hb : breaks = []
  · subst hb
    rw [e2, e1]
    refine ⟨fun h => ?_, fun h => ?_, fun h => ?_, ⟨?_, ?_, fun h => ?_⟩,
      fun h0 hp => ?_⟩
    · simp [segment_index, e2, e1, h]
    · have hm : rank ≠ 999999 := by omega
      simp [segment_index, e2, e1, hm, h]
    · have hm : rank ≠ 999999 := by omega
      have hr : ¬ (1000000 : ℤ) ≤ rank := by omega
      simp [segment_index, e2, e1, hm, hr, List.findIdx?]
    · simp
    · simp only [segment_index, e2, e1]
      split_ifs <;> simp
    · have hm : rank ≠ 999999 := by omega
      have hr : ¬ (1000000 : ℤ) ≤ rank := by omega
      simp [segment_index, e2, e1, hm, hr]
    · have hm : rank ≠ 999999 := by omega
      have hr : ¬ (1000000 : ℤ) ≤ rank := by omega
      simp [segment_index, e2, e1, hm, hr, h0]
  · rw [e2, e1]
    refine ⟨fun h => ?_, fun h => ?_, fun h => ?_, ⟨?_, ?_, fun h => ?_⟩,
      fun h0 hp => ?_⟩
    · simp [segment_index, e2, e1, hb, h]
    · have hm : rank ≠ 999999 := by omega
      simp [segment_index, e2, e1, hb, hm, h]
    · have hm : rank ≠ 999999 := by omega
      have hr : ¬ (1000000 : ℤ) ≤ rank := by omega
      simp [segment_index, e2, e1, hb, hm, hr]
    · simp [hb]
    · simp only [segment_index, e2, e1, if_neg hb]
      split_ifs with h1 h2
      · simp [hb]
      · simp
      · rcases hf : breaks.findIdx? (fun b => decide (rank ≤ b)) with _ | i
        · simp [hb, hf]
        · have := findIdxq_some_lt _ breaks i hf
          simp [hb, hf]
          omega
    · have hm : rank ≠ 999999 := by omega
      have hr : ¬ (1000000 : ℤ) ≤ rank := by omega
      simp only [segment_index, e2, e1, if_neg hb, if_neg hm, if_neg hr]
      rcases hf : breaks.findIdx? (fun b => decide (rank ≤ b)) with _ | i
      · simp [hb, hf, hm, hr]
      · have := findIdxq_some_lt _ breaks i hf
        simp [hb, hf, hm, hr]
        omega
    · have hm : rank ≠ 999999 := by omega
      have hr : ¬ (1000000 : ℤ) ≤ rank := by omega
      rcases breaks with _ | ⟨b0, brest⟩
      · exact absurd rfl hb
      · have hb0 : (0 : ℤ) ≤ b0 := hp b0 (by simp)
        have hhead : (b0 :: brest).findIdx? (fun b => decide (rank ≤ b)) = some 0 := by
          rw [List.findIdx?_cons]
          have hda : decide (rank ≤ b0) = true := by
            simp [h0]
            omega
          rw [hda]
          rfl
        simp [segment_index, e2, e1, hm, hr, hhead]

/-- Witness for C9 at a concrete input: rank 0 with positive breakpoints lands
in segment 0. -/
theorem claim_c9_witness : segment_index 0 [(3 : ℤ), 5] = 0 :=
  (claim_c9 0 [(3 : ℤ), 5]).2.2.2.2 rfl (by decide)

/-! ## Range Rule Parser (`_parse_int_ranges` / `parse_rule`, ORF.py 1556-1752)

Unicode handling is modelled on the character repertoire these functions
actually meet: `unicodedata.normalize("NFKC", ...)` is modelled as a
character-wise map taking the full-width digit, letter and punctuation forms
to their ASCII counterparts, `str.strip`/`\s` as Lean's `Char.isWhitespace`,
and `str.lower`/`str.casefold` as `Char.toLower` (ASCII case folding; CJK
characters have no case). -/

/-- Character-wise model of NFKC normalization on the program's repertoire
(full-width digits, Latin letters and punctuation map to ASCII; everything
else is untouched). -/
def nfkcChar (c : Char) : Char :=
  if 0xFF10 ≤ c.val && c.val ≤ 0xFF19 then Char.ofNat (c.val.toNat - 0xFF10 + 48)
  else if 0xFF21 ≤ c.val && c.val ≤ 0xFF3A then Char.ofNat (c.val.toNat - 0xFF21 + 65)
  else if 0xFF41 ≤ c.val && c.val ≤ 0xFF5A then Char.ofNat (c.val.toNat - 0xFF41 + 97)
  else if c = '，' then ','
  else if c = '．' then '.'
  else if c = '＊' then '*'
  else if c = '；' then ';'
  else if c = '（' then '('
  else if c = '）' then ')'
  else if c = '　' then ' '
  else c

/-- Python `str.strip()`. -/
def pyStrip (s : Str) : Str :=
  ((s.dropWhile Char.isWhitespace).reverse.dropWhile Char.isWhitespace).reverse

/-- The separator class of `_parse_int_ranges` (ORF.py 1599): whitespace,
half / full-width commas, the enumeration comma and semicolons. -/
def isSepChar (c : Char) : Bool :=
  c = ',' || c = '，' || c = '、' || c = ';' || c = '；' || c.isWhitespace

/-- The hyphen-like characters unified to a plain dash (ORF.py 1584). -/
def dashNormChar (c : Char) : Char :=
  if c = '－' || c = '—' || c = '–' || c = '−' || c = '~' || c = '～' || c = '〜'
      || c = '至' || c = '到' then '-' else c

/-- Tokeniser: splits on the separator class, dropping empty fragments
(ORF.py 1599 with its emptiness filter).  `cur` holds the current token
reversed. -/
def splitGo (sep : Char → Bool) : Str → Str → List Str
  | [], cur => if cur = [] then [] else [cur.reverse]
  | c :: rest, cur =>
    if sep c then
      if cur = [] then splitGo sep rest []
      else cur.reverse :: splitGo sep rest []
    else splitGo sep rest (c :: cur)

def splitTokens (sep : Char → Bool) (s : Str) : List Str := splitGo sep s []

/-- Numeric value of a digit string. -/
def natOfDigits (l : Str) : ℕ := l.foldl (fun n c => n * 10 + (c.toNat - 48)) 0

/-- Machine-room sentinel value `JF_VAL` (ORF.py 1587). -/
def JF_VAL : ℤ := 10 ^ 6 - 1

/-- Roof sentinel value `WM_VAL` (ORF.py 1588). -/
def WM_VAL : ℤ := 10 ^ 6

/-- Full-width parentheses normalization used by `sp_val` (ORF.py 1612). -/
def parenNormChar (c : Char) : Char :=
  if c = '（' then '(' else if c = '）' then ')' else c

/-- `sp_val`: looks a token up in `SPECIAL_MAP` after stripping, lowering and
normalizing parentheses (ORF.py 1589-1613). -/
def sp_val (s : Str) : Option ℤ :=
  let key := ((pyStrip s).map Char.toLower).map parenNormChar
  if key = strOf "机房" || key = strOf "机房层" || key = strOf "jf" then some JF_VAL
  else if key = strOf "屋面" || key = strOf "屋顶层" || key = strOf "顶层"
      || key = strOf "wm" || key = strOf "roof" then some WM_VAL
  else none

/-- `re_num_num` (ORF.py 1606): `digits-digits`, endpoints auto-swapped when
reversed (ORF.py 1627-1632).  Tokens contain no whitespace (the tokeniser
consumes it), so the `\s*` parts of the source regexes are vacuous. -/
def numNumParse (tok : Str) : Option (ℤ × ℤ) :=
  let a := tok.takeWhile Char.isDigit
  if a = [] then none
  else match tok.drop a.length with
    | '-' :: b =>
      if b ≠ [] && b.all Char.isDigit then
        let av : ℤ := natOfDigits a
        let bv : ℤ := natOfDigits b
        some (min av bv, max av bv)
      else none
    | _ => none

/-- `re_a_sp` (ORF.py 1607): `digits-specialword` (ORF.py 1636-1643). -/
def aSpParse (tok : Str) : Option (ℤ × ℤ) :=
  let a := tok.takeWhile Char.isDigit
  if a = [] then none
  else match tok.drop a.length with
    | '-' :: b =>
      if b ≠ [] && b.all (fun c => ¬ c.isDigit) then
        match sp_val b with
        | some rb =>
          let av : ℤ := natOfDigits a
          some (if av ≤ rb then (av, rb) else (rb, av))
        | none => none
      else none
    | _ => none

/-- `re_sp_b` (ORF.py 1608): `specialword-digits` (ORF.py 1646-1653).  The
digit group is the maximal digit suffix; everything before the dash must be
digit-free. -/
def spBParse (tok : Str) : Option (ℤ × ℤ) :=
  let ds := (tok.reverse.takeWhile Char.isDigit).reverse
  if ds = [] then none
  else
    let front := tok.take (tok.length - ds.length)
    match front.reverse with
    | '-' :: ra =>
      let a := ra.reverse
      if a ≠ [] && a.all (fun c => ¬ c.isDigit) then
        match sp_val a with
        | some la =>
          let bv : ℤ := natOfDigits ds
          some (if la ≤ bv then (la, bv) else (bv, la))
        | none => none
      else none
    | _ => none

/-- `re_sp_sp` (ORF.py 1609): `specialword-specialword` (ORF.py 1656-1662).
The greedy first group means the split happens at the last dash that leaves a
non-empty right part. -/
def spSpParse (tok : Str) : Option (ℤ × ℤ) :=
  if tok.all (fun c => ¬ c.isDigit) then
    match (List.range tok.length).reverse.find?
        (fun i => (tok.drop i).take 1 = ['-'] && decide (1 ≤ i)
          && decide (i + 1 < tok.length)) with
    | some i =>
      match sp_val (tok.take i), sp_val (tok.drop (i + 1)) with
      | some la, some lb => some (if la ≤ lb then (la, lb) else (lb, la))
      | _, _ => none
    | none => none
  else none

/-- Per-token parsing of `_parse_int_ranges` (ORF.py 1615-1671), with the
source's fall-through order: single integer, `digits-digits`,
`digits-special`, `special-digits`, `special-special`, single special word;
anything else is dropped (the non-fatal hint). -/
def parseToken (raw : Str) : Option (ℤ × ℤ) :=
  let tok := pyStrip raw
  if tok = [] then none
  else if tok.all Char.isDigit then
    let v : ℤ := natOfDigits tok
    some (v, v)
  else match numNumParse tok with
  | some r => some r
  | none => match aSpParse tok with
    | some r => some r
    | none => match spBParse tok with
      | some r => some r
      | none => match spSpParse tok with
        | some r => some r
        | none => match sp_val tok with
          | some sv => some (sv, sv)
          | none => none

/-- One step of the interval-merging loop (ORF.py 1680-1688), on a reversed
accumulator whose head is the last merged interval: a new interval is merged
into the last one exactly when its lower end does not exceed the last upper
end (`lo <= mhi`). -/
def mergeStep : List (ℤ × ℤ) → (ℤ × ℤ) → List (ℤ × ℤ)
  | [], r => [r]
  | (mlo, mhi) :: acc, (lo, hi) =>
    if lo ≤ mhi then (mlo, max mhi hi) :: acc else (lo, hi) :: (mlo, mhi) :: acc

/-- The sort key of ORF.py 1678: lexicographic on `(lo, hi)`.  Python's
`list.sort` is a stable sort; `List.insertionSort` is stable too, and a stable
sort's output is uniquely determined, so the two agree. -/
def rangeLe (a b : ℤ × ℤ) : Prop := a.1 < b.1 ∨ (a.1 = b.1 ∧ a.2 ≤ b.2)

instance : DecidableRel rangeLe := fun a b => by
  unfold rangeLe
  exact inferInstance

/-- `_parse_int_ranges(expr)` (ORF.py 1556-1689). -/
def parse_int_ranges (expr : Str) : List (ℤ × ℤ) :=
  let text := pyStrip expr
  if text = [] then [(1, 0)]
  else if text = strOf "*" || text = strOf "＊" then []
  else
    let text2 := (text.map nfkcChar).map dashNormChar
    let tokens := splitTokens isSepChar text2
    let ranges := tokens.filterMap parseToken
    if ranges = [] then [(1, 0)]
    else ((ranges.insertionSort rangeLe).foldl mergeStep []).reverse

/-- A parsed rule (`parse_rule`, ORF.py 1693-1713): `enabled` and a merged
interval list (empty meaning accept-all when enabled). -/
structure PRule where
  enabled : Bool
  ranges : List (ℤ × ℤ)
  explicit_all : Bool := false
deriving DecidableEq, Repr

/-- `_is_explicit_all_token` (ORF.py 1724-1733). -/
def is_explicit_all_token (s : Str) : Bool :=
  let token := pyStrip (s.map nfkcChar)
  if token = [] then false
  else if token = strOf "*" || token = strOf "全部" || token = strOf "所有" then true
  else token.map Char.toLower = strOf "all"

/-- `parse_rule(text)` (ORF.py 1693-1713). -/
def parse_rule (text : Str) : PRule :=
  let s := pyStrip text
  if s = [] then ⟨false, [], false⟩
  else if is_explicit_all_token s then ⟨true, [], true⟩
  else ⟨true, parse_int_ranges s, false⟩

/-- `_in_ranges(val, ranges)` (ORF.py 1736-1752); the `None` guard of the
source is unreachable in this model, where a rule always carries a list. -/
def in_ranges (val : ℤ) (ranges : List (ℤ × ℤ)) : Bool :=
  if ranges = [] then true
  else ranges.any (fun p => decide (p.1 ≤ val) && decide (val ≤ p.2))

/-- A rule contains a value when it is enabled and the value is in its
ranges — the combination applied at the rule's call sites
(ORF.py 2037 and 2060). -/
def ruleContains (r : PRule) (x : ℤ) : Bool := r.enabled && in_ranges x r.ranges

/-- Claim C4 (code divergence): the expression `1-2 3-4` denotes the two
adjacent intervals `[1,2]` and `[3,4]`, yet the parser returns them unmerged —
the merge step (ORF.py 1685) only coalesces on `lo <= mhi`, despite its own
comment promising that adjacent intervals merge. -/
theorem claim_c4 :
    parse_int_ranges (strOf "1-2 3-4") = [(1, 2), (3, 4)] ∧
    parse_int_ranges (strOf "1-2 3-4") ≠ [(1, 4)] := by
  constructor
  · decide
  · decide

/-- Claim C5: `parse_rule("")` contains no integer, `parse_rule("*")` contains
every integer, `parse_rule("1-3 5")` contains exactly 1, 2, 3 and 5, and
`parse_rule("5-1")` auto-swaps the reversed endpoints to contain exactly 1
through 5 — containment being the enabled-and-in-ranges test used at the
rule's call sites. -/
theorem claim_c5 :
    (∀ x : ℤ, ruleContains (parse_rule (strOf "")) x = false) ∧
    (∀ x : ℤ, ruleContains (parse_rule (strOf "*")) x = true) ∧
    (∀ x : ℤ, ruleContains (parse_rule (strOf "1-3 5")) x =
      decide (x = 1 ∨ x = 2 ∨ x = 3 ∨ x = 5)) ∧
    (∀ x : ℤ, ruleContains (parse_rule (strOf "5-1")) x = decide (1 ≤ x ∧ x ≤ 5)) := by
  have h1 : parse_rule (strOf "") = ⟨false, [], false⟩ := by decide
  have h2 : parse_rule (strOf "*") = ⟨true, [], true⟩ := by decide
  have h3 : parse_rule (strOf "1-3 5") = ⟨true, [(1, 3), (5, 5)], false⟩ := by decide
  have h4 : parse_rule (strOf "5-1") = ⟨true, [(1, 5)], false⟩ := by decide
  refine ⟨?_, ?_, ?_, ?_⟩
  · intro x; rw [h1]; rfl
  · intro x; rw [h2]; rfl
  · intro x
    rw [h3]
    rw [Bool.eq_iff_iff]
    simp [ruleContains, in_ranges]
    omega
  · intro x
    rw [h4]
    rw [Bool.eq_iff_iff]
    simp [ruleContains, in_ranges]

/-! ## Stream Splitter (`_is_mu_block`, ORF.py 765-786) -/

/-- A display block: an entity name and rows of cells (a cell is `none` for
Python `None`, or a string).  Only the first 8 cells of each row are
inspected by the stream classifier. -/
structure Block where
  name : Str
  data : List (List (Option Str))
deriving DecidableEq, Repr

/-- Model of `float(s.replace(",", ""))` for a string `s` matching
`[\d.,]+` (ORF.py 780-785), returning the integer part when parsing
succeeds: after the commas are removed the string parses exactly when it has
at most one dot and at least one digit, and — the fractional part being less
than one — the parsed magnitude reaches 1000 exactly when the integer part
does.  Decimal parsing is modelled with exact arithmetic. -/
def decimalValue (s : Str) : Option ℕ :=
  if !s.isEmpty && s.all (fun c => c.isDigit || c = '.' || c = ',') then
    let t := s.filter (fun c => ¬ c = ',')
    if decide (t.count '.' ≤ 1) && t.any Char.isDigit then
      some (natOfDigits (t.takeWhile (fun c => ¬ c = '.')))
    else none
  else none

/-- The per-cell test of `_is_mu_block` (ORF.py 772-785): `None`, `"/"` and
`"／"` are skipped; otherwise the cell is NFKC-normalized and stripped, and
flags μ when it is a pure digit string of length at least 4, or parses as a
number of magnitude at least 1000. -/
def is_mu_cell (v : Option Str) : Bool :=
  match v with
  | none => false
  | some w =>
    if w = strOf "/" || w = strOf "／" then false
    else
      let s := pyStrip (w.map nfkcChar)
      if s.all Char.isDigit && decide (4 ≤ s.length) then true
      else
        match decimalValue s with
        | some ip => decide (1000 ≤ ip)
        | none => false

/-- `_is_mu_block(block)` (ORF.py 765-786): some cell among the first 8 of
some row flags μ. -/
def is_mu_block (block : Block) : Bool :=
  block.data.any (fun row => (row.take 8).any is_mu_cell)

/-- Modelled from the spec sentence: a cell counts as amplified when its
normalized, stripped content is a pure digit string of length at least 4, or
parses as a number with absolute value at least 1000. -/
def specMuCell (v : Option Str) : Bool :=
  match v with
  | none => false
  | some w =>
    let s := pyStrip (w.map nfkcChar)
    (s.all Char.isDigit && decide (4 ≤ s.length)) ||
    (match decimalValue s with
      | some ip => decide (1000 ≤ ip)
      | none => false)

/-- Modelled from the spec sentence: a block is amplified when any of its
first 8 cells, across all rows, is amplified. -/
def spec_amplified (block : Block) : Bool :=
  block.data.any (fun row => (row.take 8).any specMuCell)

/-- A digit character is one of the ten ASCII digits. -/
theorem digit_char_mem (c : Char) (h : c.isDigit = true) :
    c ∈ ("0123456789".data) := by
  simp [Char.isDigit] at h
  obtain ⟨h1, h2⟩ := h
  have hA : 48 ≤ c.toNat := h1
  have hB : c.toNat ≤ 57 := h2
  have hc : c = Char.ofNat c.toNat := by
    rcases c with ⟨v, hv⟩
    simp [Char.ofNat, Char.toNat, Char.isValidCharNat]
    split_ifs with hgood
    · rfl
    · exfalso
      apply hgood
      rcases hv with h | h
      · left; omega
      · right; constructor <;> omega
  have hd : c.toNat = 48 ∨ c.toNat = 49 ∨ c.toNat = 50 ∨ c.toNat = 51 ∨
      c.toNat = 52 ∨ c.toNat = 53 ∨ c.toNat = 54 ∨ c.toNat = 55 ∨
      c.toNat = 56 ∨ c.toNat = 57 := by omega
  rcases hd with h3 | h3 | h3 | h3 | h3 | h3 | h3 | h3 | h3 | h3 <;>
    rw [h3] at hc <;> rw [hc] <;> decide

/-- Digit characters pass untouched through the normalizations involved. -/
theorem digit_char_facts (c : Char) (h : c.isDigit = true) :
    nfkcChar c = c ∧ c.isWhitespace = false ∧ ¬ c = ',' ∧ ¬ c = '.' := by
  have := digit_char_mem c h
  fin_cases this <;> refine ⟨by decide, by decide, by decide, by decide⟩

theorem map_id_of_mem {α : Type} (f : α → α) :
    ∀ (l : List α), (∀ c ∈ l, f c = c) → l.map f = l := by
  intro l
  induction l with
  | nil => intro _; rfl
  | cons a t ih =>
    intro h
    rw [List.map_cons, h a (by simp), ih (fun c hc => h c (by simp [hc]))]

theorem dropWhile_eq_self_of_not {α : Type} (p : α → Bool) :
    ∀ (l : List α), (∀ c ∈ l, p c = false) → l.dropWhile p = l := by
  intro l
  induction l with
  | nil => intro _; rfl
  | cons a t _ =>
    intro h
    rw [List.dropWhile_cons, h a (by simp)]
    simp

/-- An all-digit string is unmoved by NFKC normalization and stripping. -/
theorem digits_normalize_self (w : Str) (h : w.all Char.isDigit = true) :
    pyStrip (w.map nfkcChar) = w := by
  rw [List.all_eq_true] at h
  rw [map_id_of_mem nfkcChar w (fun c hc => (digit_char_facts c (h c hc)).1)]
  unfold pyStrip
  rw [dropWhile_eq_self_of_not _ w (fun c hc => (digit_char_facts c (h c hc)).2.1)]
  rw [dropWhile_eq_self_of_not _ w.reverse
    (fun c hc => (digit_char_facts c (h c (by simpa using hc))).2.1)]
  simp

/-- Numeric bound: an all-digit string of length at most 3 denotes a value
below 1000. -/
theorem natOfDigits_lt_1000 (w : Str) (hd : w.all Char.isDigit = true)
    (hl : w.length < 4) : natOfDigits w < 1000 := by
  have key : ∀ (l : Str), l.all Char.isDigit = true → ∀ n : ℕ,
      l.foldl (fun n c => n * 10 + (c.toNat - 48)) n < (n + 1) * 10 ^ l.length := by
    intro l
    induction l with
    | nil => intro _ n; simp
    | cons c t ih =>
      intro h n
      rw [List.all_cons] at h
      obtain ⟨hc, ht⟩ := (by simpa using h : c.isDigit = true ∧ t.all Char.isDigit = true)
      have hcv : c.toNat ≤ 57 := by
        simp [Char.isDigit] at hc
        exact hc.2
      have step := ih ht (n * 10 + (c.toNat - 48))
      have hle : (n * 10 + (c.toNat - 48)) + 1 ≤ (n + 1) * 10 := by omega
      calc (c :: t).foldl (fun n c => n * 10 + (c.toNat - 48)) n
        = t.foldl (fun n c => n * 10 + (c.toNat - 48)) (n * 10 + (c.toNat - 48)) := rfl
      _ < ((n * 10 + (c.toNat - 48)) + 1) * 10 ^ t.length := step
      _ ≤ ((n + 1) * 10) * 10 ^ t.length := Nat.mul_le_mul_right _ hle
      _ = (n + 1) * 10 ^ (c :: t).length := by
          rw [List.length_cons, pow_succ]
          ring
  have := key w hd 0
  have hpow : 10 ^ w.length ≤ 10 ^ 3 := Nat.pow_le_pow_right (by omega) (by omega)
  unfold natOfDigits
  calc w.foldl (fun n c => n * 10 + (c.toNat - 48)) 0 < (0 + 1) * 10 ^ w.length := this
  _ = 10 ^ w.length := by ring
  _ ≤ 10 ^ 3 := hpow
  _ = 1000 := by norm_num

theorem takeWhile_eq_self_of {α : Type} (p : α → Bool) :
    ∀ (l : List α), (∀ c ∈ l, p c = true) → l.takeWhile p = l := by
  intro l
  induction l with
  | nil => intro _; rfl
  | cons a t ih =>
    intro h
    rw [List.takeWhile_cons, h a (by simp)]
    simp [ih (fun c hc => h c (by simp [hc]))]

/-- The code's per-cell μ test agrees with the spec's formula on every cell. -/
theorem mu_cell_agrees (v : Option Str) : is_mu_cell v = specMuCell v := by
  cases v with
  | none => rfl
  | some w =>
    by_cases h1 : w = strOf "/"
    · subst h1; decide
    · by_cases h2 : w = strOf "／"
      · subst h2; decide
      · simp only [is_mu_cell, specMuCell]
        rw [if_neg (by simp [h1, h2])]
        cases hA : (pyStrip (w.map nfkcChar)).all Char.isDigit &&
            decide (4 ≤ (pyStrip (w.map nfkcChar)).length) <;>
          simp [hA]

/-- A short small all-digit cell is never flagged μ. -/
theorem mu_cell_digits_false (w : Str) (hdig : w.all Char.isDigit = true)
    (hlen : w.length < 4) (hval : natOfDigits w < 1000) :
    is_mu_cell (some w) = false := by
  have hslash : ¬ w = strOf "/" := by
    intro h; subst h; exact absurd hdig (by decide)
  have hslash2 : ¬ w = strOf "／" := by
    intro h; subst h; exact absurd hdig (by decide)
  have hs : pyStrip (w.map nfkcChar) = w := digits_normalize_self w hdig
  have hcond : (w.all Char.isDigit && decide (4 ≤ w.length)) = false := by
    simp
    intro _
    omega
  simp only [is_mu_cell]
  rw [if_neg (by simp [hslash, hslash2]), hs, hcond]
  simp only [Bool.false_eq_true, if_false]
  rcases w with _ | ⟨c, t⟩
  · rfl
  · rw [List.all_cons] at hdig
    obtain ⟨hc, ht⟩ := (by simpa using hdig : c.isDigit = true ∧ t.all Char.isDigit = true)
    have hmem : ∀ x ∈ (c :: t), x.isDigit = true := by
      intro x hx
      rcases List.mem_cons.mp hx with hx | hx
      · rw [hx]; exact hc
      · exact (List.all_eq_true.mp ht) x hx
    have hclass : (c :: t).all (fun x => x.isDigit || x = '.' || x = ',') = true := by
      rw [List.all_eq_true]
      intro x hx
      simp [hmem x hx]
    have hfilter : (c :: t).filter (fun x => ¬ x = ',') = c :: t := by
      rw [List.filter_eq_self]
      intro x hx
      simp [(digit_char_facts x (hmem x hx)).2.2.1]
    have hcount : (c :: t).count '.' = 0 := by
      rw [List.count_eq_zero]
      intro hmem2
      exact (digit_char_facts '.' (hmem '.' hmem2)).2.2.2 rfl
    have htw : (c :: t).takeWhile (fun x => ¬ x = '.') = c :: t := by
      apply takeWhile_eq_self_of
      intro x hx
      simp [(digit_char_facts x (hmem x hx)).2.2.2]
    have hany : (c :: t).any Char.isDigit = true := by
      simp [List.any_cons, hc]
    have hdv : decimalValue (c :: t) = some (natOfDigits (c :: t)) := by
      unfold decimalValue
      rw [if_pos (by simp [hclass])]
      simp only [hfilter, hcount, htw, hany]
      simp
    rw [hdv]
    simp
    omega

/-- Claim C6: the stream classifier flags a block amplified exactly when the
spec's formula does (some cell among the first 8 of some row is a pure digit
string of length at least 4 or parses with magnitude at least 1000); a block
containing the cell "12345" is always amplified; a block whose cells are all
digit strings shorter than 4 digits with value below 1000 is always normal;
and the tag depends only on the block's cell content, so re-deriving it gives
the same result. -/
theorem claim_c6 :
    (∀ b : Block, is_mu_block b = spec_amplified b) ∧
    (∀ b : Block, (∃ row ∈ b.data, some (strOf "12345") ∈ row.take 8) →
      is_mu_block b = true) ∧
    (∀ b : Block,
      (∀ row ∈ b.data, ∀ v ∈ row.take 8, ∀ w, v = some w →
        w.all Char.isDigit = true ∧ w.length < 4 ∧ natOfDigits w < 1000) →
      is_mu_block b = false) ∧
    (∀ b1 b2 : Block, b1.data = b2.data → is_mu_block b1 = is_mu_block b2) := by
  refine ⟨?_, ?_, ?_, ?_⟩
  · intro b
    have hf : is_mu_cell = specMuCell := funext mu_cell_agrees
    simp [is_mu_block, spec_amplified, hf]
  · intro b ⟨row, hrow, hcell⟩
    unfold is_mu_block
    rw [List.any_eq_true]
    refine ⟨row, hrow, ?_⟩
    rw [List.any_eq_true]
    exact ⟨some (strOf "12345"), hcell, by decide⟩
  · intro b hall
    unfold is_mu_block
    simp only [List.any_eq_false, Bool.not_eq_true]
    intro row hrow v hv
    cases v with
    | none => rfl
    | some w =>
      obtain ⟨hdig, hlen, hval⟩ := hall row hrow (some w) hv w rfl
      exact mu_cell_digits_false w hdig hlen hval
  · intro b1 b2 h
    simp only [is_mu_block, h]

/-- Witness for C6 at concrete blocks: a block holding "12345" is amplified,
a block of short digit cells is normal. -/
theorem claim_c6_witness :
    is_mu_block ⟨strOf "GZ1", [[some (strOf "12345")]]⟩ = true ∧
    is_mu_block ⟨strOf "GZ2", [[some (strOf "123"), some (strOf "999")]]⟩ = false := by
  constructor
  · exact claim_c6.2.1 ⟨strOf "GZ1", [[some (strOf "12345")]]⟩ (by decide)
  · refine claim_c6.2.2.1 ⟨strOf "GZ2", [[some (strOf "123"), some (strOf "999")]]⟩ ?_
    intro row hrow v hv w hw
    simp only [List.mem_singleton] at hrow
    subst hrow
    rw [hw] at hv
    simp at hv
    rcases hv with hv | hv <;> rw [hv] <;> refine ⟨by decide, by decide, by decide⟩

/-! ## Classifier and page-title helpers (`kind_of`, `_sheet_cat_from_title`,
`_is_mu_title`, ORF.py 52-67 and 503-535) -/

/-- Python `str.upper()` on the repertoire in play (ASCII case mapping; CJK
characters are unaffected). -/
def pyUpper (s : Str) : Str := s.map Char.toUpper

/-- `CATEGORY_SYNONYMS` (ORF.py 503-512), in the source's insertion order. -/
def CATEGORY_SYNONYMS : List (Str × List Str) :=
  [(strOf "网架",
    [strOf "网架", strOf "WJ", strOf "SPACE FRAME", strOf "SPACEFRAME",
     strOf "GRID", strOf "GRID STRUCTURE", strOf "桁架网架", strOf "球节点",
     strOf "网壳", strOf "SJ", strOf "XX", strOf "SX", strOf "FG",
     strOf "上弦", strOf "下弦", strOf "腹杆"]),
   (strOf "支撑",
    [strOf "支撑", strOf "WZ", strOf "ZC", strOf "支架", strOf "斜撑",
     strOf "撑杆"]),
   (strOf "钢柱",
    [strOf "钢柱", strOf "柱", strOf "GZ", strOf "框架柱", strOf "立柱",
     strOf "H柱"]),
   (strOf "钢梁",
    [strOf "钢梁", strOf "梁", strOf "GL", strOf "连系梁", strOf "檩条",
     strOf "楼梯梁", strOf "平台梁", strOf "屋架梁"])]

/-- `kind_of(name)` (ORF.py 515-535): first category in the fixed order whose
synonym list hits — ASCII synonyms case-insensitively against the uppercased
name, other synonyms as exact substrings — defaulting to `其他`. -/
def strContains (sub s : Str) : Bool := decide (List.IsInfix sub s)

def kind_of (name : Str) : Str :=
  let sUp := pyUpper name
  match CATEGORY_SYNONYMS.find? (fun cw =>
    cw.2.any (fun w =>
      if w.all (fun c => c.val < 128) then strContains (pyUpper w) sUp
      else strContains w name)) with
  | some cw => cw.1
  | none => strOf "其他"

/-- `CATEGORY_ORDER` (ORF.py 35). -/
def CATEGORY_ORDER : List Str :=
  [strOf "钢柱", strOf "钢梁", strOf "支撑", strOf "网架", strOf "其他"]

/-- Strips a trailing `（digits）` page-number suffix (the regex
`re.sub(r"（\d+）$", "", ...)` of ORF.py 54). -/
def stripNumSuffix (s : Str) : Str :=
  match s.reverse with
  | '）' :: rest =>
    let ds := rest.takeWhile Char.isDigit
    if ds.isEmpty then s
    else
      match rest.drop ds.length with
      | '（' :: rem => rem.reverse
      | _ => s
  | _ => s

/-- `base.replace(" μ", "μ")` (ORF.py 55): left-to-right, non-overlapping. -/
def replaceSpaceMu : Str → Str
  | ' ' :: 'μ' :: rest => 'μ' :: replaceSpaceMu rest
  | c :: rest => c :: replaceSpaceMu rest
  | [] => []

/-- `_sheet_cat_from_title(title)` (ORF.py 52-60): strip the page-number
suffix and every `μ`, then return the first category the base starts with. -/
def sheet_cat_from_title (title : Str) : Option Str :=
  let base := replaceSpaceMu (stripNumSuffix (pyStrip title))
  let base_wo_mu := base.filter (fun c => ¬ c = 'μ')
  (CATEGORY_ORDER.find? (fun c => c.isPrefixOf base_wo_mu)).map id

/-- `_is_mu_title(title)` (ORF.py 62-63). -/
def is_mu_title (title : Str) : Bool := 'μ' ∈ title

/-! ## Write phase (`fill_blocks_to_pages`, ORF.py 2485-2535)

The workbook mutation is modelled as the list of write events the loop
performs: `write p pos b` for `write_block` on page `p` at slot `pos`, and
`padTail p pos` for `slash_tail` padding page `p` from slot `pos` on.  The
loop's state machine — `(page_idx, pos)`, where `pos` is 0 whenever a new
page is entered — is rendered as one run per page (`fillPageRun`) chained
over the page list (`fillPagesRun`). -/

inductive WEvent where
  | write (page pos : ℕ) (b : Block)
  | padTail (page fromPos : ℕ)
deriving DecidableEq, Repr

/-- `BLOCKS_PER_SHEET` (ORF.py 28). -/
def BLOCKS_PER_SHEET : ℕ := 5

/-- The strict guard of ORF.py 2504-2510: category clash (when the page title
declares a category — `kind_of` never returns an empty string, so the
`block_cat` truthiness test always passes) or μ-stream clash. -/
def fillMismatch (title : Str) (b : Block) : Bool :=
  (match sheet_cat_from_title title with
   | some c => decide (¬ c = kind_of b.name)
   | none => false) || decide (¬ is_mu_title title = is_mu_block b)

/-- One page's portion of the write loop, starting at slot `pos` (ORF.py
2500-2530): on mismatch, stop the page — padding it from `pos` when already
written into; on a write, advance the slot, closing the page when full; when
the blocks run out mid-page, pad the rest (ORF.py 2533-2535).  Returns the
events and the leftover blocks. -/
def fillPageRun (t : Str) (off : ℕ) : ℕ → List Block → (List WEvent × List Block)
  | pos, [] => (if pos ≠ 0 then [WEvent.padTail off pos] else [], [])
  | pos, b :: bs =>
    if fillMismatch t b then
      if pos = 0 then ([], b :: bs) else ([WEvent.padTail off pos], b :: bs)
    else if pos + 1 = BLOCKS_PER_SHEET then ([WEvent.write off pos b], bs)
    else (WEvent.write off pos b :: (fillPageRun t off (pos + 1) bs).1,
          (fillPageRun t off (pos + 1) bs).2)

/-- The write loop over the page list; every page after the first is entered
at slot 0. -/
def fillPagesRun (off : ℕ) : List Str → List Block → List WEvent
  | [], _ => []
  | t :: ts, blocks =>
    (fillPageRun t off 0 blocks).1 ++
      fillPagesRun (off + 1) ts (fillPageRun t off 0 blocks).2

/-- `fill_blocks_to_pages(wb, pages_slice, blocks)` (ORF.py 2485-2535) as its
event trace (the early return on an empty page list included). -/
def fill_blocks_to_pages (pages_slice : List Str) (blocks : List Block) : List WEvent :=
  if pages_slice = [] then [] else fillPagesRun 0 pages_slice blocks

/-- Writes emitted while on one page stay on that page and pass the guard. -/
theorem fillPageRun_write_mem (t : Str) (off : ℕ) :
    ∀ (bs : List Block) (pos p q : ℕ) (b : Block),
      WEvent.write p q b ∈ (fillPageRun t off pos bs).1 →
      p = off ∧ fillMismatch t b = false := by
  intro bs
  induction bs with
  | nil =>
    intro pos p q b h
    simp only [fillPageRun] at h
    split_ifs at h <;> simp at h
  | cons b0 rest ih =>
    intro pos p q b h
    simp only [fillPageRun] at h
    by_cases hm : fillMismatch t b0
    · rw [if_pos hm] at h
      split_ifs at h <;> simp at h
    · rw [if_neg hm] at h
      by_cases hfull : pos + 1 = BLOCKS_PER_SHEET
      · rw [if_pos hfull] at h
        simp at h
        obtain ⟨hp, _, hb⟩ := h
        subst hp; subst hb
        exact ⟨rfl, by simpa using hm⟩
      · rw [if_neg hfull] at h
        simp only [List.mem_cons] at h
        rcases h with h | h
        · obtain ⟨hp, hq, hb⟩ := WEvent.write.inj h
          subst hp; subst hb
          exact ⟨rfl, by simpa using hm⟩
        · exact ih (pos + 1) p q b h

/-- Every write the loop performs targets an existing page and passes the
cross-category / cross-stream guard. -/
theorem fillPagesRun_write_mem :
    ∀ (pages : List Str) (off : ℕ) (blocks : List Block) (p q : ℕ) (b : Block),
      WEvent.write p q b ∈ fillPagesRun off pages blocks →
      ∃ t, off ≤ p ∧ pages[p - off]? = some t ∧ fillMismatch t b = false := by
  intro pages
  induction pages with
  | nil => intro off blocks p q b h; simp [fillPagesRun] at h
  | cons t ts ih =>
    intro off blocks p q b h
    simp only [fillPagesRun, List.mem_append] at h
    rcases h with h | h
    · obtain ⟨hp, hmm⟩ := fillPageRun_write_mem t off blocks 0 p q b h
      subst hp
      exact ⟨t, le_refl _, by simp, hmm⟩
    · obtain ⟨t2, hle, hget, hmm⟩ := ih (off + 1) _ p q b h
      refine ⟨t2, by omega, ?_, hmm⟩
      have hidx : p - off = (p - (off + 1)) + 1 := by omega
      rw [hidx]
      simpa using hget

/-- Counterexample for C1 as stated: on a page whose title resolves to no
category (here "P"), the guard's category half is vacuous, so blocks of two
different categories are written onto the same page. -/
theorem claim_c1_cex :
    fill_blocks_to_pages [strOf "P"]
      [⟨strOf "GZ1", [[some (strOf "1")]]⟩, ⟨strOf "GL1", [[some (strOf "2")]]⟩] =
      [WEvent.write 0 0 ⟨strOf "GZ1", [[some (strOf "1")]]⟩,
       WEvent.write 0 1 ⟨strOf "GL1", [[some (strOf "2")]]⟩,
       WEvent.padTail 0 2] ∧
    sheet_cat_from_title (strOf "P") = none ∧
    kind_of (strOf "GZ1") = strOf "钢柱" ∧
    kind_of (strOf "GL1") = strOf "钢梁" ∧
    ¬ (strOf "钢柱" : Str) = strOf "钢梁" := by
  refine ⟨by decide, by decide, by decide, by decide, by decide⟩

/-- Claim C1 (amended): every block the write loop emits lands on an existing
page whose μ/normal stream equals the block's, and whose declared category —
whenever the title resolves to one — equals the block's category; hence a
page never mixes streams, and a page with a recognized category title never
holds two categories; and on a mismatch the loop skips a still-empty page,
or placeholder-pads a started page before advancing. -/
theorem claim_c1 :
    (∀ (pages : List Str) (blocks : List Block) (p q : ℕ) (b : Block),
      WEvent.write p q b ∈ fill_blocks_to_pages pages blocks →
      ∃ t, pages[p]? = some t ∧ is_mu_title t = is_mu_block b ∧
        (sheet_cat_from_title t = none ∨
         sheet_cat_from_title t = some (kind_of b.name))) ∧
    (∀ (pages : List Str) (blocks : List Block) (p q1 q2 : ℕ) (b1 b2 : Block),
      WEvent.write p q1 b1 ∈ fill_blocks_to_pages pages blocks →
      WEvent.write p q2 b2 ∈ fill_blocks_to_pages pages blocks →
      is_mu_block b1 = is_mu_block b2 ∧
        (∀ c t, pages[p]? = some t → sheet_cat_from_title t = some c →
          kind_of b1.name = c ∧ kind_of b2.name = c)) ∧
    (∀ (t : Str) (off pos : ℕ) (b : Block) (bs : List Block),
      fillMismatch t b = true →
      fillPageRun t off pos (b :: bs) =
        (if pos = 0 then ([], b :: bs) else ([WEvent.padTail off pos], b :: bs))) := by
  have main : ∀ (pages : List Str) (blocks : List Block) (p q : ℕ) (b : Block),
      WEvent.write p q b ∈ fill_blocks_to_pages pages blocks →
      ∃ t, pages[p]? = some t ∧ is_mu_title t = is_mu_block b ∧
        (sheet_cat_from_title t = none ∨
         sheet_cat_from_title t = some (kind_of b.name)) := by
    intro pages blocks p q b h
    unfold fill_blocks_to_pages at h
    by_cases hpe : pages = []
    · rw [if_pos hpe] at h; simp at h
    · rw [if_neg hpe] at h
      obtain ⟨t, _, hget, hmm⟩ := fillPagesRun_write_mem pages 0 blocks p q b h
      rw [Nat.sub_zero] at hget
      refine ⟨t, hget, ?_⟩
      rcases hsc : sheet_cat_from_title t with _ | c
      · unfold fillMismatch at hmm
        rw [hsc] at hmm
        simp at hmm
        exact ⟨hmm, Or.inl rfl⟩
      · unfold fillMismatch at hmm
        rw [hsc] at hmm
        simp at hmm
        exact ⟨hmm.2, Or.inr (by rw [hmm.1])⟩
  refine ⟨main, ?_, ?_⟩
  · intro pages blocks p q1 q2 b1 b2 h1 h2
    obtain ⟨t1, hg1, hmu1, hc1⟩ := main pages blocks p q1 b1 h1
    obtain ⟨t2, hg2, hmu2, hc2⟩ := main pages blocks p q2 b2 h2
    have ht : t1 = t2 := by
      rw [hg1] at hg2
      exact Option.some.inj hg2
    subst ht
    constructor
    · rw [← hmu1, hmu2]
    · intro c t hget hcat
      have ht1 : t1 = t := by
        rw [hg1] at hget
        exact Option.some.inj hget
      subst ht1
      rcases hc1 with hc1 | hc1
      · rw [hc1] at hcat; exact absurd hcat (by simp)
      · rcases hc2 with hc2 | hc2
        · rw [hc2] at hcat; exact absurd hcat (by simp)
        · rw [hc1] at hcat
          have e1 := Option.some.inj hcat
          rw [hc2] at hc1
          have e2 := Option.some.inj hc1
          exact ⟨e1, by rw [e2, e1]⟩
  · intro t off pos b bs hm
    simp only [fillPageRun, hm, if_pos]

/-- Witness for C1 at a concrete input: a matching block is written onto the
category page and carries its stream and category. -/
theorem claim_c1_witness :
    (WEvent.write 0 0 ⟨strOf "GZ1", [[some (strOf "1")]]⟩ ∈
      fill_blocks_to_pages [strOf "钢柱"] [⟨strOf "GZ1", [[some (strOf "1")]]⟩]) ∧
    (∃ t, ([strOf "钢柱"] : List Str)[0]? = some t ∧
      is_mu_title t = is_mu_block ⟨strOf "GZ1", [[some (strOf "1")]]⟩ ∧
      (sheet_cat_from_title t = none ∨
       sheet_cat_from_title t =
        some (kind_of (⟨strOf "GZ1", [[some (strOf "1")]]⟩ : Block).name))) :=
  ⟨by decide,
    claim_c1.1 [strOf "钢柱"] [⟨strOf "GZ1", [[some (strOf "1")]]⟩] 0 0
      ⟨strOf "GZ1", [[some (strOf "1")]]⟩ (by decide)⟩

/-! ## Page Allocator (`ensure_total_pages`, `_ensure_mu_pages_shared`,
`ensure_pages_slices_for_cat_muaware`, ORF.py 704-726, 789-807, 832-886)

The workbook is modelled by its sheet-name list; cloning a sheet appends the
new name.  `_ensure_mu_pages_shared` raises when the μ template is missing,
so the allocator returns an `Option`. -/

/-- Decimal rendering of a page ordinal. -/
def natToChars (n : ℕ) : Str := Nat.toDigits 10 n

/-- The number carried by the first `（digits）` group of a sheet name (the
regex `（(\d+)）` of ORF.py 718), if any. -/
def firstParenNum : Str → Option ℕ
  | [] => none
  | '（' :: rest =>
    let ds := rest.takeWhile Char.isDigit
    if ds.isEmpty then firstParenNum rest
    else
      match rest.drop ds.length with
      | '）' :: _ => some (natOfDigits ds)
      | _ => firstParenNum rest
  | _ :: rest => firstParenNum rest

/-- Does the sheet name match `^base（\d+）$` (ORF.py 717)? -/
def matchesNumbered (base s : Str) : Bool :=
  base.isPrefixOf s &&
    (match s.drop base.length with
     | '（' :: rest =>
       let ds := rest.takeWhile Char.isDigit
       !ds.isEmpty && rest.drop ds.length = ['）']
     | _ => false)

/-- Sort key of ORF.py 718: the base page first, numbered pages by ordinal. -/
def pageSortKey (base s : Str) : ℕ :=
  if s = base then 0 else (firstParenNum s).getD 0

/-- A page's displayed ordinal, per the source's naming convention
(ORF.py 717-726 and 789-807): the bare base or μ-template page is page 1,
`…（n）` is page n. -/
def pageNumber (s : Str) : ℕ := (firstParenNum s).getD 1

/-- The cloning loop of `ensure_total_pages` (ORF.py 720-725): each new sheet
`base（start）` is cloned from the base (appending its name to the workbook)
and appended to the name list. -/
def etpLoop (base : Str) : ℕ → ℕ → List Str → List Str → (List Str × List Str)
  | 0, _, wb, names => (wb, names)
  | k + 1, start, wb, names =>
    let nm := base ++ strOf "（" ++ natToChars start ++ strOf "）"
    etpLoop base k (start + 1) (wb ++ [nm]) (names ++ [nm])

/-- `ensure_total_pages(wb, base, total_needed)` (ORF.py 704-726): collect
and sort the existing pages of the family, then clone until `total_needed`
exist.  Returns the updated workbook and the name list. -/
def ensure_total_pages (wb : List Str) (base : Str) (total_needed : ℕ) :
    List Str × List Str :=
  let names := (wb.filter (fun s => s = base || matchesNumbered base s)).insertionSort
    (fun a b => pageSortKey base a ≤ pageSortKey base b)
  etpLoop base (total_needed - names.length) (names.length + 1) wb names

/-- The numbered-page loop of `_ensure_mu_pages_shared` (ORF.py 795-807):
page indices run from `start_idx + 1`; when `start_idx` is 0 and the μ
template exists, the template itself serves as the first page; otherwise each
missing `baseμ（idx）` is cloned from the μ template, and a missing template
is a `RuntimeError` (`none`). -/
def empLoop (base mu_tpl : Str) (useTplFirst : Bool) (firstIdx : ℕ) :
    ℕ → ℕ → List Str → List Str → Option (List Str × List Str)
  | 0, _, wb, pages => some (wb, pages)
  | k + 1, idx, wb, pages =>
    if useTplFirst && idx = firstIdx then
      empLoop base mu_tpl useTplFirst firstIdx k (idx + 1) wb (pages ++ [mu_tpl])
    else
      let nm := base ++ strOf "μ（" ++ natToChars idx ++ strOf "）"
      if nm ∈ wb then
        empLoop base mu_tpl useTplFirst firstIdx k (idx + 1) wb (pages ++ [nm])
      else if mu_tpl ∈ wb then
        empLoop base mu_tpl useTplFirst firstIdx k (idx + 1) (wb ++ [nm]) (pages ++ [nm])
      else none

/-- `_ensure_mu_pages_shared(wb, base, mu_tpl, start_idx, count)`
(ORF.py 789-807). -/
def ensure_mu_pages_shared (wb : List Str) (base mu_tpl : Str)
    (start_idx count : ℕ) : Option (List Str × List Str) :=
  let useTplFirst := decide (start_idx = 0) && decide (mu_tpl ∈ wb)
  empLoop base mu_tpl useTplFirst (start_idx + 1) count (start_idx + 1) wb []

/-- `pages_needed(blocks)` (ORF.py 829-830). -/
def pages_needed (blocks : List Block) : ℕ :=
  if blocks.isEmpty then 0
  else (blocks.length + BLOCKS_PER_SHEET - 1) / BLOCKS_PER_SHEET

/-- The per-bucket loop of `ensure_pages_slices_for_cat_muaware`
(ORF.py 848-884), carrying the workbook, the shared normal+μ page count
(`total_all_pages`) and the normal-only count (`normal_pages_created`). -/
def epsLoop (cat : Str) (bbb : List (ℕ × List Block)) :
    List ℕ → List Str → ℕ → ℕ → List (List Str) → List (List Block) →
    Option (List Str × List (List Str) × List (List Block))
  | [], wb, _, _, ps, bs => some (wb, ps, bs)
  | i :: rest, wb, totalAll, normalCreated, ps, bs =>
    let all_blocks := (bbb.lookup i).getD []
    let normal_blocks := all_blocks.filter (fun b => ¬ is_mu_block b)
    let mu_blocks := all_blocks.filter (fun b => is_mu_block b)
    let need_n := pages_needed normal_blocks
    let need_m := pages_needed mu_blocks
    let stepN : List Str × List Str :=
      if need_n ≠ 0 then
        let r := ensure_total_pages wb cat (normalCreated + need_n)
        (r.1, pySlice r.2 normalCreated need_n)
      else (wb, [])
    match (if need_m ≠ 0 then
            ensure_mu_pages_shared stepN.1 cat (cat ++ [ 'μ' ])
              (totalAll + need_n) need_m
           else some (stepN.1, [])) with
    | none => none
    | some (wb3, mu_batch) =>
      epsLoop cat bbb rest wb3 (totalAll + need_n + need_m)
        (normalCreated + (if need_n ≠ 0 then need_n else 0))
        (ps ++ [stepN.2 ++ mu_batch]) (bs ++ [normal_blocks ++ mu_blocks])

/-- `ensure_pages_slices_for_cat_muaware(wb, cat, blocks_by_bucket)`
(ORF.py 832-886): buckets in ascending key order; normal pages first, then μ
pages per bucket; μ page numbering starts after all pages created so far plus
this bucket's normal pages.  Returns the workbook, `pages_slices` and
`blocks_slices`. -/
def ensure_pages_slices_for_cat_muaware (wb : List Str) (cat : Str)
    (blocks_by_bucket : List (ℕ × List Block)) :
    Option (List Str × List (List Str) × List (List Block)) :=
  let buckets := (blocks_by_bucket.map Prod.fst).insertionSort (fun a b => a ≤ b)
  epsLoop cat blocks_by_bucket buckets wb 0 0 [] []

/-- Claim C3 (code divergence): with one μ-only bucket followed by one
normal-only bucket, the allocator materializes the μ template (page number 1)
and then the normal base page (page number 1 again): the combined
normal-plus-μ page numbering is not a single continuous sequence — the μ-page
ordinals account for normal pages (`start_idx_for_mu`, ORF.py 873), but
normal-page names are numbered by the normal-only counter (ORF.py 862),
contradicting the function's own doc comment promising shared continuous
numbering across buckets (ORF.py 836). -/
theorem claim_c3 :
    ensure_pages_slices_for_cat_muaware [strOf "钢柱", strOf "钢柱μ"] (strOf "钢柱")
        [(0, [⟨strOf "GZ9", [[some (strOf "12345")]]⟩]),
         (1, [⟨strOf "GZ1", [[some (strOf "1")]]⟩])] =
      some ([strOf "钢柱", strOf "钢柱μ"],
        [[strOf "钢柱μ"], [strOf "钢柱"]],
        [[⟨strOf "GZ9", [[some (strOf "12345")]]⟩],
         [⟨strOf "GZ1", [[some (strOf "1")]]⟩]]) ∧
    ([[strOf "钢柱μ"], [strOf "钢柱"]] : List (List Str)).flatten.map pageNumber =
      [1, 1] ∧
    ¬ pageNumber (strOf "钢柱") = pageNumber (strOf "钢柱μ") + 1 ∧
    is_mu_block ⟨strOf "GZ9", [[some (strOf "12345")]]⟩ = true ∧
    is_mu_block ⟨strOf "GZ1", [[some (strOf "1")]]⟩ = false := by
  refine ⟨by decide, by decide, by decide, by decide, by decide⟩

/-! ## Entity projections for bucket assignment (`floor_of`, `_wz_no`,
`net_part`, `_net_no`, `_match_keywords`, ORF.py 538-563, 1755-1821)

The regex searches are hand-rolled scanners over `Str`: `re.search` tries
each start position left to right; the patterns involved are deterministic
(no backtracking changes the outcome, as each optional piece is forced by
the following mandatory one).  Python's `\w` (word character) is modelled
for the repertoire in play as ASCII alphanumerics, underscore and CJK
ideographs. -/

/-- Python `\w` on the program's repertoire. -/
def pyWordChar (c : Char) : Bool :=
  c.isAlphanum || c = '_' || (0x4E00 ≤ c.val && c.val ≤ 0x9FFF)

/-- A `\b` boundary before a word-character pattern. -/
def boundaryBefore : Option Char → Bool
  | none => true
  | some p => !pyWordChar p

/-- A `\b` boundary after a word-character pattern. -/
def boundaryAfter : Str → Bool
  | [] => true
  | c :: _ => !pyWordChar c

/-- Occurrence of a word-bounded literal pattern (`\bpat\b`), whose first and
last characters are word characters. -/
def wordBoundedAux (pat : Str) (prev : Option Char) : Str → Bool
  | [] => false
  | c :: rest =>
    (boundaryBefore prev && pat.isPrefixOf (c :: rest) &&
      boundaryAfter ((c :: rest).drop pat.length)) ||
    wordBoundedAux pat (some c) rest

def wordBounded (pat s : Str) : Bool := wordBoundedAux pat none s

/-- Occurrence of `a\s*b` (two literals separated by optional whitespace). -/
def hasCharSpacesChar (a b : Char) : Str → Bool
  | [] => false
  | c :: rest =>
    (c = a && (match rest.dropWhile Char.isWhitespace with
               | d :: _ => decide (d = b)
               | [] => false)) ||
    hasCharSpacesChar a b rest

/-- First match of `[FLfl]\s*(\d+)` (the `(?i)[FL]\s*(\d+)` of ORF.py 554). -/
def searchFLnum : Str → Option ℕ
  | [] => none
  | c :: rest =>
    if c = 'F' || c = 'L' || c = 'f' || c = 'l' then
      let t := rest.dropWhile Char.isWhitespace
      let ds := t.takeWhile Char.isDigit
      if ds.isEmpty then searchFLnum rest else some (natOfDigits ds)
    else searchFLnum rest

/-- First match of `(\d+)\s*[letters]` (ORF.py 556 and 558). -/
def searchNumThen (letters : List Char) : Str → Option ℕ
  | [] => none
  | c :: rest =>
    if c.isDigit then
      let ds := c :: rest.takeWhile Char.isDigit
      let after := (rest.dropWhile Char.isDigit).dropWhile Char.isWhitespace
      match after with
      | a :: _ =>
        if a ∈ letters then some (natOfDigits ds) else searchNumThen letters rest
      | [] => searchNumThen letters rest
    else searchNumThen letters rest

/-- The dash unification of `floor_of` (ORF.py 545). -/
def floorDashChar (c : Char) : Char :=
  if c = '－' || c = '—' || c = '–' then '-' else c

/-- `floor_of(name)` (ORF.py 538-563): machine room first (`10^6 - 1`), roof
next (`10^6`), then the three numeric-floor patterns; underground markers and
unparsed names both yield 0. -/
def floor_of (name : Str) : ℤ :=
  let s := name.map floorDashChar
  let sl := s.map Char.toLower
  if strContains (strOf "机房") sl || wordBounded (strOf "jf") sl then JF_VAL
  else if strContains (strOf "屋面") s || strContains (strOf "屋顶") s
      || hasCharSpacesChar '顶' '层' s
      || wordBounded (strOf "wm") sl || wordBounded (strOf "dc") sl then WM_VAL
  else match searchFLnum s with
    | some n => (n : ℤ)
    | none => match searchNumThen ['F', 'L', 'f', 'l'] s with
      | some n => (n : ℤ)
      | none => match searchNumThen ['层', '樓', '楼'] s with
        | some n => (n : ℤ)
        | none => 0

/-- Tail `\s*[-–—]?\s*(\d+)` with an optional trailing `\b` check (ORF.py
1801 with the boundary, 1803 without). -/
def dashNumTail (wideDashes : Bool) (requireBoundary : Bool) (l : Str) : Option ℤ :=
  let t1 := l.dropWhile Char.isWhitespace
  let t2 := match t1 with
    | c :: rest =>
      if c = '-' || (wideDashes && (c = '–' || c = '—')) then rest else t1
    | [] => t1
  let t3 := t2.dropWhile Char.isWhitespace
  let ds := t3.takeWhile Char.isDigit
  if ds.isEmpty then none
  else if requireBoundary && !boundaryAfter (t3.drop ds.length) then none
  else some (natOfDigits ds : ℤ)

/-- Scanner for `(?i)\b(?:WZ|ZC)\s*[-–—]?\s*(\d+)\b` (ORF.py 1801). -/
def wzNoAux (prev : Option Char) : Str → Option ℤ
  | [] => none
  | c :: rest =>
    match (if boundaryBefore prev &&
          ((c.toUpper = 'W' && (rest.take 1).map Char.toUpper = ['Z']) ||
           (c.toUpper = 'Z' && (rest.take 1).map Char.toUpper = ['C'])) then
        dashNumTail true true (rest.drop 1)
      else none) with
    | some v => some v
    | none => wzNoAux (some c) rest

/-- Scanner for `支撑\s*[-–—]?\s*(\d+)` (ORF.py 1803). -/
def zhichengAux : Str → Option ℤ
  | [] => none
  | c :: rest =>
    if c = '支' && rest.take 1 = ['撑'] then
      match dashNumTail true false (rest.drop 1) with
      | some v => some v
      | none => zhichengAux rest
    else zhichengAux rest

/-- `_wz_no(name)` (ORF.py 1787-1804). -/
def wz_no (name : Str) : Option ℤ :=
  match wzNoAux none name with
  | some v => some v
  | none => zhichengAux name

/-- The lookbehind class `[A-Z0-9]` of `net_part` (on the uppercased name). -/
def isUpperAlnum (c : Char) : Bool := ('A' ≤ c && c ≤ 'Z') || c.isDigit

/-- Lookahead `(?=[-_]?\d)` (ORF.py 1761-1766). -/
def netLookahead (l : Str) : Bool :=
  match l with
  | c :: rest =>
    if c = '-' || c = '_' then
      match rest with
      | d :: _ => d.isDigit
      | [] => false
    else c.isDigit
  | [] => false

/-- Occurrence of `(?<![A-Z0-9])t1t2(?=[-_]?\d)` on the uppercased name. -/
def netTagAux (t1 t2 : Char) (prev : Option Char) : Str → Bool
  | [] => false
  | c :: rest =>
    ((match prev with
      | none => true
      | some p => !isUpperAlnum p) &&
     decide (c = t1) && rest.take 1 = [t2] && netLookahead (rest.drop 1)) ||
    netTagAux t1 t2 (some c) rest

/-- `net_part(name)` (ORF.py 1755-1769): `XX`, `FG`, `SX` via prefix-tag or
Chinese alias patterns, in that order — both the explicit generic-grid test
and the fallthrough return `GEN`. -/
def net_part (name : Str) : Str :=
  let s := pyUpper name
  if netTagAux 'X' 'X' none s || hasCharSpacesChar '下' '弦' s then strOf "XX"
  else if netTagAux 'F' 'G' none s || hasCharSpacesChar '腹' '杆' s then strOf "FG"
  else if netTagAux 'S' 'X' none s || hasCharSpacesChar '上' '弦' s then strOf "SX"
  else strOf "GEN"

/-- Tail `\s*[-_]?(\d+)` of the net-number patterns (ORF.py 1781, 1783). -/
def netNumTail (l : Str) : Option ℤ :=
  let t1 := l.dropWhile Char.isWhitespace
  let t2 := match t1 with
    | c :: rest => if c = '-' || c = '_' then rest else t1
    | [] => t1
  let ds := t2.takeWhile Char.isDigit
  if ds.isEmpty then none else some (natOfDigits ds : ℤ)

/-- Scanner for `t1t2\s*[-_]?(\d+)` on the uppercased name (ORF.py 1781). -/
def netTagNumAux (t1 t2 : Char) : Str → Option ℤ
  | [] => none
  | c :: rest =>
    if decide (c = t1) && rest.take 1 = [t2] then
      match netNumTail (rest.drop 1) with
      | some v => some v
      | none => netTagNumAux t1 t2 rest
    else netTagNumAux t1 t2 rest

/-- One generic-grid tag (`WJ`, `网架`, `SPACE\s*FRAME` or `GRID`) matched at
the head, returning the remainder (the alternatives start with distinct
characters, so the alternation order is immaterial). -/
def genTagAt (l : Str) : Option Str :=
  if (strOf "WJ").isPrefixOf l then some (l.drop 2)
  else if (strOf "网架").isPrefixOf l then some (l.drop 2)
  else if (strOf "GRID").isPrefixOf l then some (l.drop 4)
  else if (strOf "SPACE").isPrefixOf l then
    let r := (l.drop 5).dropWhile Char.isWhitespace
    if (strOf "FRAME").isPrefixOf r then some (r.drop 5) else none
  else none

/-- Scanner for `(?:WJ|网架|SPACE\s*FRAME|GRID)\s*[-_]?(\d+)` (ORF.py 1783). -/
def genNumAux : Str → Option ℤ
  | [] => none
  | c :: rest =>
    match genTagAt (c :: rest) with
    | some after =>
      (match netNumTail after with
       | some v => some v
       | none => genNumAux rest)
    | none => genNumAux rest

/-- `_net_no(name)` (ORF.py 1772-1784). -/
def net_no (name : Str) : Option ℤ :=
  let s := pyUpper name
  let part := net_part name
  if part = strOf "XX" then netTagNumAux 'X' 'X' s
  else if part = strOf "FG" then netTagNumAux 'F' 'G' s
  else if part = strOf "SX" then netTagNumAux 'S' 'X' s
  else genNumAux s

/-- `_match_keywords(name, kws)` (ORF.py 1807-1821): an unset or empty
keyword list matches everything; otherwise any keyword as a case-insensitive
substring. -/
def match_keywords (name : Str) (kws : Option (List Str)) : Bool :=
  match kws with
  | none => true
  | some l =>
    if l.isEmpty then true
    else l.any (fun k => strContains (k.map Char.toLower) (name.map Char.toLower))

/-! ## Bucket Assignment Engine (`assign_by_buckets`, ORF.py 1999-2069) -/

/-- An entity group as the engine reads it: only the `name` key is consulted
(the measurement rows it carries are opaque to the assignment). -/
structure EntGroup where
  name : Str
deriving DecidableEq, Repr

/-- A bucket's rule for one category: either a plain `{enabled, ranges}`
dict, or — for the grid-frame category — a `{parts, strategy}` dict of
sub-kind rules. -/
inductive BucketRule where
  | plain (r : PRule)
  | net (parts : List (Str × PRule)) (strategy : Option Str)
deriving DecidableEq

/-- A bucket: its per-category rules and optional keyword filter.  A bucket
with no entry for a category never receives that category (the source's
falsy-rule `continue`). -/
structure Bucket where
  rules : List (Str × BucketRule)
  kws : Option (List Str) := none
deriving DecidableEq

/-- Strategy-global resolution (ORF.py 2022-2025): a falsy global degrades to
`number`, and the value is lowercased. -/
def resolveStrategy (g : Option Str) : Str :=
  match g with
  | none => strOf "number"
  | some s => if s.isEmpty then strOf "number" else s.map Char.toLower

/-- The loop-body condition of `assign_by_buckets` (ORF.py 2031-2065) for one
bucket: the bucket has a rule for the category; unless the category is the
grid frame, the rule is enabled (a net-shaped dict has no `enabled` key and
is skipped); the category-and-strategy-specific projection of the group lies
in the rule's ranges; and the keyword filter matches.  `supS`/`netS` are the
resolved strategy globals. -/
def bucketMatch (supS netS : Str) (cat : Str) (g : EntGroup) (b : Bucket) : Bool :=
  match b.rules.lookup cat with
  | none => false
  | some rule =>
    let enabledOK : Bool :=
      if cat = strOf "网架" then true
      else match rule with
        | BucketRule.plain r => r.enabled
        | BucketRule.net _ _ => false
    if !enabledOK then false
    else
      let fl := floor_of g.name
      let ok : Bool :=
        if cat = strOf "支撑" then
          match rule with
          | BucketRule.plain r =>
            if supS = strOf "number" then
              if r.ranges.isEmpty then true
              else match wz_no g.name with
                | some n => in_ranges n r.ranges
                | none => false
            else in_ranges fl r.ranges
          | BucketRule.net _ _ => false
        else if cat = strOf "网架" then
          match rule with
          | BucketRule.plain _ => false
          | BucketRule.net parts strategy =>
            let part := net_part g.name
            match (parts.lookup part).orElse (fun _ => parts.lookup (strOf "GEN")) with
            | none => false
            | some pr =>
              if !pr.enabled then false
              else
                let strat := match strategy with
                  | none => netS
                  | some s => if s.isEmpty then netS else s.map Char.toLower
                if strat = strOf "number" then
                  match net_no g.name with
                  | some no => in_ranges no pr.ranges
                  | none => false
                else in_ranges fl pr.ranges
        else
          match rule with
          | BucketRule.plain r => in_ranges fl r.ranges
          | BucketRule.net _ _ => false
      ok && match_keywords g.name b.kws

/-- The bucket evaluation order (ORF.py 2021): last-declared-first by
default, first-declared-first otherwise. -/
def bucketOrder (later_priority : Bool) (n : ℕ) : List ℕ :=
  if later_priority then (List.range n).reverse else List.range n

/-- The inner for-with-break of ORF.py 2031-2065: the first bucket in the
evaluation order whose condition holds. -/
def chooseBucket (supS netS : Str) (cat : Str) (buckets : List Bucket)
    (later_priority : Bool) (g : EntGroup) : Option ℕ :=
  (bucketOrder later_priority buckets.length).find? (fun bi =>
    match buckets[bi]? with
    | some b => bucketMatch supS netS cat g b
    | none => false)

/-- The per-category group loop (ORF.py 2027-2065): each group in order is
appended to its chosen bucket's list and its index recorded as assigned. -/
def assignCatGo (choose : EntGroup → Option ℕ) :
    ℕ → List EntGroup → List (List EntGroup) → List ℕ → (List (List EntGroup) × List ℕ)
  | _, [], byb, asg => (byb, asg)
  | idx, g :: gs, byb, asg =>
    match choose g with
    | some bi =>
      assignCatGo choose (idx + 1) gs (byb.set bi (byb.getD bi [] ++ [g])) (asg ++ [idx])
    | none => assignCatGo choose (idx + 1) gs byb asg

/-- `assign_by_buckets(cat_groups, buckets, later_priority)`
(ORF.py 1999-2069): returns per category the bucket-indexed assignment lists
and the leftover groups (those whose index was never assigned,
ORF.py 2067-2068). -/
def assign_by_buckets (supG netG : Option Str)
    (cat_groups : List (Str × List EntGroup)) (buckets : List Bucket)
    (later_priority : Bool) :
    List (Str × List (List EntGroup)) × List (Str × List EntGroup) :=
  let supS := resolveStrategy supG
  let netS := resolveStrategy netG
  let perCat := cat_groups.map (fun cg =>
    let r := assignCatGo (chooseBucket supS netS cg.1 buckets later_priority) 0 cg.2
      (buckets.map (fun _ => [])) []
    (cg.1, r.1,
      (cg.2.enum.filter (fun q => decide (¬ q.1 ∈ r.2))).map Prod.snd))
  (perCat.map (fun p => (p.1, p.2.1)), perCat.map (fun p => (p.1, p.2.2)))

/-! ### First-match characterization of the assignment loop -/

theorem mem_enumFrom_iff {α : Type} :
    ∀ (l : List α) (k : ℕ) (p : ℕ × α),
      p ∈ l.enumFrom k ↔ k ≤ p.1 ∧ l[p.1 - k]? = some p.2 := by
  intro l
  induction l with
  | nil => intro k p; simp
  | cons a t ih =>
    intro k p
    simp only [List.enumFrom, List.mem_cons]
    constructor
    · rintro (rfl | hp)
      · simp
      · obtain ⟨hk, hg⟩ := (ih (k + 1) p).mp hp
        refine ⟨by omega, ?_⟩
        have hidx : p.1 - k = (p.1 - (k + 1)) + 1 := by omega
        rw [hidx]
        simpa using hg
    · rintro ⟨hk, hg⟩
      by_cases he : p.1 = k
      · left
        have h0 : p.1 - k = 0 := by omega
        rw [h0] at hg
        simp at hg
        obtain ⟨i, x⟩ := p
        simp at he hg ⊢
        exact ⟨he, hg.symm⟩
      · right
        apply (ih (k + 1) p).mpr
        refine ⟨by omega, ?_⟩
        have hidx : p.1 - k = (p.1 - (k + 1)) + 1 := by omega
        rw [hidx] at hg
        simpa using hg

theorem enumFrom_filter_snd {α : Type} (P : α → Bool) :
    ∀ (l : List α) (k : ℕ),
      ((l.enumFrom k).filter (fun q => P q.2)).map Prod.snd = l.filter P := by
  intro l
  induction l with
  | nil => intro k; rfl
  | cons a t ih =>
    intro k
    simp only [List.enumFrom, List.filter_cons]
    by_cases hp : P a
    · simp [hp, ih]
    · simp [hp, ih]

theorem assignCatGo_spec (choose : EntGroup → Option ℕ) (nb : ℕ)
    (hch : ∀ g bi, choose g = some bi → bi < nb) :
    ∀ (gs : List EntGroup) (idx : ℕ) (byb : List (List EntGroup)) (asg : List ℕ),
      byb.length = nb →
      (assignCatGo choose idx gs byb asg).1.length = nb ∧
      (∀ bi, bi < nb →
        (assignCatGo choose idx gs byb asg).1.getD bi [] =
          byb.getD bi [] ++ gs.filter (fun g => choose g = some bi)) ∧
      (assignCatGo choose idx gs byb asg).2 =
        asg ++ ((gs.enumFrom idx).filter (fun q => (choose q.2).isSome)).map Prod.fst := by
  intro gs
  induction gs with
  | nil =>
    intro idx byb asg hlen
    refine ⟨hlen, ?_, by simp [assignCatGo]⟩
    intro bi _
    simp [assignCatGo]
  | cons g gs ih =>
    intro idx byb asg hlen
    cases hc : choose g with
    | none =>
      have hstep : assignCatGo choose idx (g :: gs) byb asg =
          assignCatGo choose (idx + 1) gs byb asg := by
        simp [assignCatGo, hc]
      obtain ⟨L, B, A⟩ := ih (idx + 1) byb asg hlen
      rw [hstep]
      refine ⟨L, ?_, ?_⟩
      · intro bi hbi
        rw [B bi hbi]
        congr 1
        simp [List.filter_cons, hc]
      · rw [A]
        congr 1
        simp [List.enumFrom, List.filter_cons, hc]
    | some bi0 =>
      have hbi0 : bi0 < nb := hch g bi0 hc
      have hlen2 : (byb.set bi0 (byb.getD bi0 [] ++ [g])).length = nb := by
        simp [hlen]
      have hstep : assignCatGo choose idx (g :: gs) byb asg =
          assignCatGo choose (idx + 1) gs
            (byb.set bi0 (byb.getD bi0 [] ++ [g])) (asg ++ [idx]) := by
        simp [assignCatGo, hc]
      obtain ⟨L, B, A⟩ := ih (idx + 1) (byb.set bi0 (byb.getD bi0 [] ++ [g])) (asg ++ [idx]) hlen2
      rw [hstep]
      refine ⟨L, ?_, ?_⟩
      · intro bi hbi
        rw [B bi hbi]
        by_cases hbe : bi = bi0
        · subst hbe
          have hset : (byb.set bi (byb.getD bi [] ++ [g])).getD bi [] =
              byb.getD bi [] ++ [g] := by
            have hlt : bi < byb.length := by omega
            simp [List.getD, List.getElem?_set_self, hlt]
          rw [hset, List.append_assoc]
          congr 1
          simp [List.filter_cons, hc]
        · have hset : (byb.set bi0 (byb.getD bi0 [] ++ [g])).getD bi [] =
              byb.getD bi [] := by
            simp [List.getD, List.getElem?_set_ne (fun h => hbe h.symm)]
          rw [hset]
          congr 1
          have hne : (decide (choose g = some bi)) = false := by
            simp [hc]
            exact fun h => hbe h.symm
          simp [List.filter_cons, hne]
      · rw [A, List.append_assoc]
        congr 1
        simp [List.enumFrom, List.filter_cons, hc]

/-- Claim C8: buckets are evaluated in priority order (last-declared-first by
default, first-declared-first otherwise); each entity group goes to the first
bucket in that order whose category rule contains the entity's projected
value and whose keyword filter matches (an unset or empty keyword list
matching every name), no further buckets being tried; the groups a bucket
receives are exactly the groups (in input order) whose first match is that
bucket, the category leftovers are exactly the groups matching no bucket, and
consequently every group lands in exactly one bucket or in the leftovers,
never in two buckets. -/
theorem claim_c8 (supG netG : Option Str) (cat_groups : List (Str × List EntGroup))
    (buckets : List Bucket) (later_priority : Bool) :
    (∀ n : ℕ, bucketOrder true n = (List.range n).reverse ∧
      bucketOrder false n = List.range n) ∧
    (∀ name : Str,
      match_keywords name none = true ∧ match_keywords name (some []) = true) ∧
    (∀ (i : ℕ) (cat : Str) (groups : List EntGroup),
      cat_groups[i]? = some (cat, groups) →
      ∃ bybL remainL,
        (assign_by_buckets supG netG cat_groups buckets later_priority).1[i]? =
          some (cat, bybL) ∧
        (assign_by_buckets supG netG cat_groups buckets later_priority).2[i]? =
          some (cat, remainL) ∧
        bybL.length = buckets.length ∧
        (∀ bi, bi < buckets.length →
          bybL[bi]? = some (groups.filter (fun g =>
            chooseBucket (resolveStrategy supG) (resolveStrategy netG) cat buckets
              later_priority g = some bi))) ∧
        remainL = groups.filter (fun g =>
          (chooseBucket (resolveStrategy supG) (resolveStrategy netG) cat buckets
            later_priority g).isNone) ∧
        (∀ (g : EntGroup) (l1 l2 : List EntGroup) (bi1 bi2 : ℕ),
          bybL[bi1]? = some l1 → bybL[bi2]? = some l2 →
          g ∈ l1 → g ∈ l2 → bi1 = bi2) ∧
        (∀ g ∈ remainL, ∀ (bi : ℕ) (l : List EntGroup),
          bybL[bi]? = some l → ¬ g ∈ l)) := by
  refine ⟨fun n => ⟨rfl, rfl⟩, fun name => ⟨rfl, rfl⟩, ?_⟩
  intro i cat groups hget
  have hch : ∀ (g : EntGroup) (bi : ℕ),
      chooseBucket (resolveStrategy supG) (resolveStrategy netG) cat buckets
        later_priority g = some bi → bi < buckets.length := by
    intro g bi h
    have hmem := List.mem_of_find?_eq_some h
    unfold bucketOrder at hmem
    split_ifs at hmem
    · rw [List.mem_reverse] at hmem
      exact List.mem_range.mp hmem
    · exact List.mem_range.mp hmem
  obtain ⟨L, B, A⟩ := assignCatGo_spec
    (chooseBucket (resolveStrategy supG) (resolveStrategy netG) cat buckets later_priority)
    buckets.length hch groups 0 (buckets.map (fun _ => [])) [] (by simp)
  set choose := chooseBucket (resolveStrategy supG) (resolveStrategy netG) cat buckets
    later_priority with hchdef
  set r := assignCatGo choose 0 groups (buckets.map (fun _ => [])) [] with hrdef
  have hres1 :
      (assign_by_buckets supG netG cat_groups buckets later_priority).1[i]? =
        some (cat, r.1) := by
    simp only [assign_by_buckets, List.getElem?_map, hget]
    rfl
  have hres2 :
      (assign_by_buckets supG netG cat_groups buckets later_priority).2[i]? =
        some (cat, (groups.enum.filter (fun q => decide (¬ q.1 ∈ r.2))).map Prod.snd) := by
    simp only [assign_by_buckets, List.getElem?_map, hget]
    rfl
  have hasg : r.2 = ((groups.enumFrom 0).filter
      (fun q => (choose q.2).isSome)).map Prod.fst := by
    have h := A
    rw [List.nil_append] at h
    exact h
  have hmem_iff : ∀ q ∈ groups.enum,
      (decide (¬ q.1 ∈ r.2)) = ((choose q.2).isNone) := by
    intro q hq
    have hq0 : groups[q.1]? = some q.2 := by
      have := (mem_enumFrom_iff groups 0 q).mp (by simpa [List.enum] using hq)
      simpa using this.2
    rw [hasg]
    by_cases hs : (choose q.2).isSome
    · have hin : q.1 ∈ ((groups.enumFrom 0).filter
          (fun p => (choose p.2).isSome)).map Prod.fst := by
        rw [List.mem_map]
        refine ⟨q, ?_, rfl⟩
        rw [List.mem_filter]
        exact ⟨by simpa [List.enum] using hq, by simpa using hs⟩
      obtain ⟨v, hv⟩ := Option.isSome_iff_exists.mp hs
      rw [hv]
      simp [hin]
    · have hout : ¬ q.1 ∈ ((groups.enumFrom 0).filter
          (fun p => (choose p.2).isSome)).map Prod.fst := by
        rw [List.mem_map]
        rintro ⟨p, hp, hpq⟩
        rw [List.mem_filter] at hp
        obtain ⟨hpmem, hps⟩ := hp
        have hp0 := (mem_enumFrom_iff groups 0 p).mp hpmem
        have hpeq : p.2 = q.2 := by
          have h1 : groups[p.1]? = some p.2 := by simpa using hp0.2
          rw [hpq, hq0] at h1
          exact (Option.some.inj h1).symm
        rw [hpeq] at hps
        exact hs (by simpa using hps)
      rw [Option.not_isSome_iff_eq_none.mp hs]
      simp [hout]
  have hremain : (groups.enum.filter (fun q => decide (¬ q.1 ∈ r.2))).map Prod.snd =
      groups.filter (fun g => (choose g).isNone) := by
    rw [List.filter_congr hmem_iff]
    have := enumFrom_filter_snd (fun g : EntGroup => (choose g).isNone) groups 0
    simpa [List.enum] using this
  have hgetb : ∀ bi, bi < buckets.length →
      r.1[bi]? = some (groups.filter (fun g => choose g = some bi)) := by
    intro bi hbi
    have hlen : bi < r.1.length := by rw [hrdef, L]; exact hbi
    have hB := B bi hbi
    have hinit : (buckets.map (fun _ => ([] : List EntGroup))).getD bi [] = [] := by
      have : bi < (buckets.map (fun _ => ([] : List EntGroup))).length := by simpa using hbi
      rw [List.getD_eq_getElem _ _ this]
      simp
    rw [hinit, List.nil_append] at hB
    rw [List.getElem?_eq_getElem hlen]
    rw [← List.getD_eq_getElem r.1 [] hlen]
    rw [hrdef] at hB ⊢
    rw [hB]
  refine ⟨r.1, groups.filter (fun g => (choose g).isNone), hres1, ?_, ?_, hgetb, rfl,
    ?_, ?_⟩
  · rw [hres2, hremain]
  · rw [hrdef] at L ⊢
    exact L
  · intro g l1 l2 bi1 bi2 h1 h2 hg1 hg2
    have hb1 : bi1 < buckets.length := by
      have := List.getElem?_eq_some.mp h1
      obtain ⟨hlt, _⟩ := this
      rw [hrdef] at hlt
      omega
    have hb2 : bi2 < buckets.length := by
      have := List.getElem?_eq_some.mp h2
      obtain ⟨hlt, _⟩ := this
      rw [hrdef] at hlt
      omega
    rw [hgetb bi1 hb1] at h1
    rw [hgetb bi2 hb2] at h2
    have hl1 := Option.some.inj h1
    have hl2 := Option.some.inj h2
    rw [← hl1] at hg1
    rw [← hl2] at hg2
    have hc1 := (List.mem_filter.mp hg1).2
    have hc2 := (List.mem_filter.mp hg2).2
    have e1 : choose g = some bi1 := by simpa using hc1
    have e2 : choose g = some bi2 := by simpa using hc2
    rw [e1] at e2
    exact Option.some.inj e2
  · intro g hg bi l hl hgl
    have hbl : bi < buckets.length := by
      have := List.getElem?_eq_some.mp hl
      obtain ⟨hlt, _⟩ := this
      rw [hrdef] at hlt
      omega
    rw [hgetb bi hbl] at hl
    have hleq := Option.some.inj hl
    rw [← hleq] at hgl
    have hcs : choose g = some bi := by simpa using (List.mem_filter.mp hgl).2
    have hcn : (choose g).isNone = true := by simpa using (List.mem_filter.mp hg).2
    rw [hcs] at hcn
    simp at hcn

/-- Witness for C8 at a concrete input: a column group whose floor lies in
the single bucket's rule is assigned, leaving no leftovers. -/
theorem claim_c8_witness :
    (assign_by_buckets none none
        [(strOf "钢柱", [(⟨strOf "GZ1 2F"⟩ : EntGroup)])]
        [⟨[(strOf "钢柱", BucketRule.plain ⟨true, [(1, 3)], false⟩)], none⟩]
        true).2[0]? = some (strOf "钢柱", ([] : List EntGroup)) := by
  obtain ⟨bybL, remainL, h1, h2, hlen, hb, hrem, hu1, hu2⟩ :=
    (claim_c8 none none
      [(strOf "钢柱", [(⟨strOf "GZ1 2F"⟩ : EntGroup)])]
      [⟨[(strOf "钢柱", BucketRule.plain ⟨true, [(1, 3)], false⟩)], none⟩] true).2.2
      0 (strOf "钢柱") [⟨strOf "GZ1 2F"⟩] (by decide)
  rw [h2, hrem]
  decide
